import Mathlib

/-!
Shallow embedding of the in-memory storage engine of `django_cassandra_fake`
(file `src/django_cassandra_fake/connection.py`), together with theorems that
settle the specification claims about it.

Modelling conventions:
* Python values stored in rows are modelled by `Value`.  Container columns in
  this code base only ever hold scalar elements (the schema layer builds
  `List/Set/Map` columns over scalar element columns, and the normalizer's
  `get_formatter` stops at `BaseContainerColumn`, i.e. containers nest at most
  one level), so containers carry `Scalar` elements.
* Python `dict`s are modelled as association lists written through `alSet`,
  which overwrites the first binding in place exactly like a `dict` item
  assignment; `List.lookup` models `dict.get` / `dict.__getitem__`.
* Python `set`s are modelled as lists; `Value.beq` compares sets and maps
  extensionally (mutual membership / pointwise lookup), matching Python `==`.
* Machine integers and floats are modelled by `ℚ` (Python `int`/`float`
  compare equal across the two types, e.g. `1 == 1.0`, which a single numeric
  constructor reproduces; the arithmetic performed by the code — division by
  `1e3`, subtraction of a constant — is exact on the inputs it receives).
* Fallible operations return `Option`/`Except`: `none`/`.error` marks a point
  where the Python code raises (`KeyError`, `TypeError`, `IndexError`,
  `CQLEngineException`, `LWTException`).
* `Table._primary_key_names` and `Table._column_names` are Python `set`s whose
  iteration order is arbitrary but fixed within a process; the embedding uses
  the declaration-order list, one admissible fixed order.  Every use in the
  source (the `zip` in `_find_by_pk` against the list built in `insert`)
  only requires that the same fixed order is used everywhere.
-/

namespace CassandraFake

/-- A scalar Python value: `None`, a number (`int`/`float` unified, as in
Python equality), a string, a `datetime.date` (held as its day offset from
the epoch) or a `datetime.datetime` (held as its epoch seconds).  The last
two model the objects built by the `Date` normalizer and (hypothetically)
a calendar-datetime result of timestamp normalization. -/
inductive Scalar where
  | null : Scalar
  | num : ℚ → Scalar
  | str : String → Scalar
  | calDate : ℚ → Scalar
  | calDatetime : ℚ → Scalar
deriving DecidableEq, Repr

instance : BEq Scalar := ⟨fun a b => decide (a = b)⟩

instance : LawfulBEq Scalar where
  eq_of_beq h := of_decide_eq_true h
  rfl := by simp [BEq.beq]

/-- A Python value as stored in a row: a scalar, a `list`, a `set` or a
(string-keyed) `dict`.  Every map built or consumed by this code has string
keys (`Table._assign_value` applies `dict.update(**value)`, which requires
them). -/
inductive Value where
  | scalar : Scalar → Value
  | vlist : List Scalar → Value
  | vset : List Scalar → Value
  | vmap : List (String × Scalar) → Value
deriving DecidableEq, Repr

/-- Python `==` on stored values: structural on scalars and lists,
extensional on sets (mutual membership) and dicts (pointwise lookup over the
union of the key sets). -/
def Value.beq : Value → Value → Bool
  | .scalar a, .scalar b => a == b
  | .vlist xs, .vlist ys => xs == ys
  | .vset xs, .vset ys => xs.all (fun e => ys.contains e) && ys.all (fun e => xs.contains e)
  | .vmap xs, .vmap ys =>
      (xs.map Prod.fst ++ ys.map Prod.fst).all
        (fun k => List.lookup k xs == List.lookup k ys)
  | _, _ => false

/-- A row: a Python `dict` from storage (db) column name to value. -/
abbrev Row := List (String × Value)

/-- Replace every binding whose key is `k` by `(k, v)`, keeping positions. -/
def replaceKey {α : Type} (k : String) (v : α) (l : List (String × α)) :
    List (String × α) :=
  l.map (fun p => match p.1 == k with | true => (k, v) | false => p)

/-- Python `d[k] = v` on an association-list dict: overwrite in place if the
key is present (keeping its position, as CPython does), append otherwise. -/
def alSet {α : Type} (l : List (String × α)) (k : String) (v : α) : List (String × α) :=
  if l.any (fun p => p.1 == k) then replaceKey k v l
  else l ++ [(k, v)]

/-- `entry.get(k)` collapsed with the convention that a missing key reads as
`None`; used only where the source either calls `.get` (insert's primary-key
check) or has already ensured the key is present (`_find_by_pk`, whose rows
are all built by `insert` with the full declared column set). -/
def rowGetD (r : Row) (k : String) : Value :=
  (List.lookup k r).getD (.scalar .null)

/-- Element type of a container column (`c.types[...]` in the normalizer):
either a plain scalar column (no registered formatter) or a
timestamp/date column. -/
inductive ElemKind where
  | plain : ElemKind
  | edt : ElemKind
  | edate : ElemKind
deriving DecidableEq, Repr

/-- The declared type of a column, as far as the engine dispatches on it:
`_default_value` keys on `List`/`Set`/`Map`, `_assign_value` on
`isinstance(..., List/Set/Map)`, and the normalizer's `format_normalizers`
on `DateTime`/`Date`/`Map`/`Set`/`List`. -/
inductive ColKind where
  | plain : ColKind
  | dt : ColKind
  | date : ColKind
  | clist : ElemKind → ColKind
  | cset : ElemKind → ColKind
  | cmap : ElemKind → ElemKind → ColKind
deriving DecidableEq, Repr

/-- A declared column: its storage name (`db_field_name`), primary-key flag
and type. -/
structure Column where
  dbField : String
  primaryKey : Bool
  kind : ColKind
deriving DecidableEq, Repr

/-- A `Table`: name, the ordered mapping of model column name to `Column`
(`self._columns`), the `db_field_name -> model name` alias map
(`self._db_map`) and the stored rows (`self._entries`).  The lock
serializes the Python methods; the embedding models each locked method as
one atomic state transition. -/
structure Table where
  name : String
  columns : List (String × Column)
  dbMap : List (String × String)
  entries : List Row
deriving DecidableEq, Repr

/-- `self._column_names`: the set of storage names of the declared columns
(kept as a list in declaration order; only membership and iteration are
used). -/
def Table.columnNames (t : Table) : List String :=
  t.columns.map (fun p => p.2.dbField)

/-- `self._primary_key_names`: the set of model names of primary-key
columns (kept as a list in declaration order, one admissible fixed
iteration order of the Python set; `insert` and `_find_by_pk` only require
that the same order is used in both). -/
def Table.primaryKeyNames (t : Table) : List String :=
  (t.columns.filter (fun p => p.2.primaryKey)).map (fun p => p.1)

/-- `Table.__init__`: a freshly created table has the given schema and no
rows. -/
def Table.create (name : String) (columns : List (String × Column))
    (dbMap : List (String × String)) : Table :=
  { name := name, columns := columns, dbMap := dbMap, entries := [] }

/-- `Table._default_value`: map the storage name back through `_db_map`,
look the column up, and default `List`/`Set`/`Map` columns to an empty
container and everything else (including an unknown column) to `None`. -/
def Table._default_value (t : Table) (column_name : String) : Value :=
  let model_name := (List.lookup column_name t.dbMap).getD column_name
  match List.lookup model_name t.columns with
  | some col =>
      match col.kind with
      | .clist _ => .vlist []
      | .cset _ => .vset []
      | .cmap _ _ => .vmap []
      | _ => .scalar .null
  | none => .scalar .null

/-- The row built at the top of `Table.insert`:
`{cn: values.get(cn, default(cn)) for cn in self._column_names}`. -/
def Table.newEntry (t : Table) (values : Row) : Row :=
  t.columnNames.foldl
    (fun acc cn => alSet acc cn ((List.lookup cn values).getD (t._default_value cn)))
    []

/-- The `match` test of `_find_by_pk`: every `(pk_name, pk_value)` pair of
`zip(self._primary_key_names, pks)` satisfies `entry[pk_name] == pk_value`
(the Python loop clears `match` on a mismatch and never breaks, which is
the same conjunction). -/
def Table.pkMatch (t : Table) (pks : List Value) (e : Row) : Bool :=
  (t.primaryKeyNames.zip pks).all (fun p => (rowGetD e p.1).beq p.2)

/-- First index satisfying `p`, starting the count at `i`
(the `enumerate` loop shape shared by `_find_by_pk`). -/
def findIdxFrom (p : Row → Bool) : Nat → List Row → Option Nat
  | _, [] => none
  | i, e :: rest => if p e then some i else findIdxFrom p (i + 1) rest

/-- `Table._find_by_pk`: index of the first stored row whose primary-key
columns equal `pks`, if any. -/
def Table._find_by_pk (t : Table) (pks : List Value) : Option Nat :=
  findIdxFrom (t.pkMatch pks) 0 t.entries

/-- The errors the engine raises: `LWTException`, `CQLEngineException`,
`KeyError` on registry lookups, and the remaining runtime errors
(`TypeError`/`KeyError`/`IndexError`/`ValueError`) that mark paths the
Python code would crash on. -/
inductive DBError where
  | lwt : DBError
  | cqlEngine : DBError
  | keyError : DBError
  | runtime : DBError
deriving DecidableEq, Repr

/-- Case tag of an `Except` result, to make engine results decidably
comparable. -/
def exceptToSum {e a : Type} : Except e a → e ⊕ a
  | .error x => .inl x
  | .ok x => .inr x

instance {e a : Type} [DecidableEq e] [DecidableEq a] : DecidableEq (Except e a) :=
  fun x y =>
    decidable_of_iff (exceptToSum x = exceptToSum y)
      (by cases x <;> cases y <;> simp [exceptToSum])

/-- `Table.insert`: build the full row, refuse a missing/`None` primary-key
column (`CQLEngineException`), then either replace the row found by
`_find_by_pk` (or raise `LWTException` under `if_not_exists`) or append.
Mutating calls return the engine's answer together with the table state
after the call. -/
def Table.insert (t : Table) (values : Row) (if_not_exists : Bool) :
    Except DBError Unit × Table :=
  let entry := t.newEntry values
  if t.primaryKeyNames.any (fun pk => decide (rowGetD entry pk = .scalar .null)) then
    (.error .cqlEngine, t)
  else
    let pks := t.primaryKeyNames.map (fun pk => rowGetD entry pk)
    match t._find_by_pk pks with
    | some idx =>
        if if_not_exists then (.error .lwt, t)
        else (.ok (), { t with entries := t.entries.set idx entry })
    | none => (.ok (), { t with entries := t.entries ++ [entry] })

/-- One row of `_get_indices_by_kwargs`' scan: every filter key must be
present with an equal value. -/
def rowMatchesKwargs (kwargs : Row) (e : Row) : Bool :=
  kwargs.all (fun p =>
    match List.lookup p.1 e with
    | none => false
    | some w => w.beq p.2)

/-- The collecting loop of `_get_indices_by_kwargs`, with its early return
`if limit is not None and len(indices) == limit` checked after every row
(matching or not). -/
def idxLoop (kwargs : Row) (limit : Option Nat) : Nat → List Row → List Nat → List Nat
  | _, [], acc => acc
  | i, e :: rest, acc =>
      let acc2 := if rowMatchesKwargs kwargs e then acc ++ [i] else acc
      if limit = some acc2.length then acc2
      else idxLoop kwargs limit (i + 1) rest acc2

/-- `Table._get_indices_by_kwargs`: with no filters it returns
`range(len(self._entries))` — ignoring `limit` entirely; otherwise it scans
with the early-return loop above. -/
def Table._get_indices_by_kwargs (t : Table) (limit : Option Nat) (kwargs : Row) :
    List Nat :=
  if kwargs.isEmpty then List.range t.entries.length
  else idxLoop kwargs limit 0 t.entries []

/-- Sequential `Option`-valued map, mirroring a Python comprehension whose
body may raise: the first failure aborts the whole expression. -/
def traverseOpt {α β : Type} (f : α → Option β) : List α → Option (List β)
  | [] => some []
  | a :: as =>
      match f a, traverseOpt f as with
      | some b, some bs => some (b :: bs)
      | _, _ => none

/-- `Table._get_item_by_idx`: project `select` out of row `idx`, renaming
each field through `_db_map.get(f, f)`; reading a field absent from the row
(or an out-of-range index) is a `KeyError`/`IndexError`, i.e. `none`.  The
output dict is built left to right (`alSet`), as the comprehension does. -/
def Table._get_item_by_idx (t : Table) (idx : Nat) (select : List String) : Option Row :=
  match t.entries.get? idx with
  | none => none
  | some e =>
      (traverseOpt (fun f => (List.lookup f e).map
          (fun v => ((List.lookup f t.dbMap).getD f, v))) select).map
        (fun pairs => pairs.foldl (fun acc p => alSet acc p.1 p.2) [])

/-- `Table.find`: deep-copied projections of the rows selected by
`_get_indices_by_kwargs` (copies are identities on pure values). -/
def Table.find (t : Table) (filters : Row) (limit : Option Nat)
    (select : List String) : Option (List Row) :=
  traverseOpt (fun idx => t._get_item_by_idx idx select)
    (t._get_indices_by_kwargs limit filters)

def DEFAULT_OPERATOR : String := "assign"

/-- Python `set.update`: insert each element of `v` not already present,
in iteration order. -/
def setUpdate (s v : List Scalar) : List Scalar :=
  v.foldl (fun acc e => if acc.contains e then acc else acc ++ [e]) s

/-- Python `set -= v`: set difference. -/
def setDiff (s v : List Scalar) : List Scalar :=
  s.filter (fun e => !(v.contains e))

/-- Python `dict.update(**v)`: insert or overwrite every binding of `v`. -/
def mapUpdate (m v : List (String × Scalar)) : List (String × Scalar) :=
  v.foldl (fun acc p => alSet acc p.1 p.2) m

/-- The container branches of `Table._assign_value`, keyed on the declared
column kind and the operator string exactly as the `elif` chain is: a
branch whose stored value or operand has the wrong Python type is a
`TypeError` (`none`); a `(kind, operator)` pair matching no branch falls
off the chain and is a silent no-op. -/
def applyContainerOp (kind : ColKind) (op : String) (r : Row) (column : String)
    (value : Value) : Option Row :=
  match kind, op with
  | .clist _, "append" =>
      match List.lookup column r, value with
      | some (.vlist xs), .vlist ys => some (alSet r column (.vlist (xs ++ ys)))
      | _, _ => none
  | .clist _, "prepend" =>
      match List.lookup column r, value with
      | some (.vlist xs), .vlist ys => some (alSet r column (.vlist (ys ++ xs)))
      | _, _ => none
  | .cset _, "add" =>
      match List.lookup column r, value with
      | some (.vset s), .vset v => some (alSet r column (.vset (setUpdate s v)))
      | some (.vset s), .vlist v => some (alSet r column (.vset (setUpdate s v)))
      | _, _ => none
  | .cset _, "remove" =>
      match List.lookup column r, value with
      | some (.vset s), .vset v => some (alSet r column (.vset (setDiff s v)))
      | _, _ => none
  | .cmap _ _, "update" =>
      match List.lookup column r, value with
      | some (.vmap m), .vmap v => some (alSet r column (.vmap (mapUpdate m v)))
      | _, _ => none
  | .cmap _ _, "remove" =>
      match List.lookup column r, value with
      | some (.vmap m), .vset v =>
          some (alSet r column (.vmap (m.filter (fun p => !(v.contains (.str p.1))))))
      | some (.vmap m), .vlist v =>
          some (alSet r column (.vmap (m.filter (fun p => !(v.contains (.str p.1))))))
      | _, _ => none
  | _, _ => some r

/-- `Table._assign_value` acting on an entries list: the default operator
assigns unconditionally; every other operator first evaluates
`self._columns[column]` (a `KeyError` if the storage name is not also a
model name) and then runs the `elif` chain above on row `item_idx`. -/
def Table._assign_value (t : Table) (es : List Row) (item_idx : Nat)
    (column op : String) (value : Value) : Option (List Row) :=
  if op = DEFAULT_OPERATOR then
    match es.get? item_idx with
    | none => none
    | some r => some (es.set item_idx (alSet r column value))
  else
    match List.lookup column t.columns with
    | none => none
    | some col =>
        match es.get? item_idx with
        | none => none
        | some r => (applyContainerOp col.kind op r column value).map (es.set item_idx)

/-- The inner loop of `Table.update` at one row index: apply each
`(attribute, operator, value)` triple whose attribute is a declared
storage name, skipping the rest.  A raising assignment aborts the loop,
leaving the mutations already applied in place (the exception propagates
out of the `with` block). -/
def Table.applyAssignmentsAt (t : Table) (item_idx : Nat) :
    List (String × String × Value) → List Row → Except DBError Unit × List Row
  | [], es => (.ok (), es)
  | (attr, op, v) :: rest, es =>
      if attr ∈ t.columnNames then
        match t._assign_value es item_idx attr op v with
        | none => (.error .runtime, es)
        | some es2 => t.applyAssignmentsAt item_idx rest es2
      else t.applyAssignmentsAt item_idx rest es

/-- The outer loop of `Table.update` over the matched indices. -/
def Table.applyAtIndices (t : Table) (values : List (String × String × Value)) :
    List Nat → List Row → Except DBError Unit × List Row
  | [], es => (.ok (), es)
  | i :: rest, es =>
      match t.applyAssignmentsAt i values es with
      | (.error e, es2) => (.error e, es2)
      | (.ok _, es2) => t.applyAtIndices values rest es2

/-- `Table.update`: match with `_get_indices_by_kwargs(**filters)` (no
limit), raise `LWTException` when nothing matched and `if_exists` is set,
otherwise apply the assignments to every matched row. -/
def Table.update (t : Table) (filters : Row) (values : List (String × String × Value))
    (if_exists : Bool) : Except DBError Unit × Table :=
  let indices := t._get_indices_by_kwargs none filters
  if indices.isEmpty && if_exists then (.error .lwt, t)
  else
    match t.applyAtIndices values indices t.entries with
    | (res, es) => (res, { t with entries := es })

/-- Stable insertion into a descending-sorted list (used to model
`sorted(indices, reverse=True)`). -/
def insertDesc (n : Nat) : List Nat → List Nat
  | [] => [n]
  | m :: ms => if n ≥ m then n :: m :: ms else m :: insertDesc n ms

def sortDesc (l : List Nat) : List Nat := l.foldr insertDesc []

/-- `Table.delete`: an empty filter truncates the table; otherwise match
(again without limit), raise `LWTException` when nothing matched and
`if_exists` is set, and delete the matched rows by descending index. -/
def Table.delete (t : Table) (filters : Row) (if_exists : Bool) :
    Except DBError Unit × Table :=
  if filters.isEmpty then (.ok (), { t with entries := [] })
  else
    let indices := t._get_indices_by_kwargs none filters
    if indices.isEmpty && if_exists then (.error .lwt, t)
    else
      (.ok (), { t with entries :=
        (sortDesc indices).foldl (fun es i => es.eraseIdx i) t.entries })

/-- A `Keyspace`: a name and its mapping from table name to `Table`. -/
structure Keyspace where
  name : String
  tables : List (String × Table)
deriving DecidableEq, Repr

/-- `Keyspace.add_table`: unconditional dict assignment of a freshly
constructed (empty) `Table` under `name`. -/
def Keyspace.add_table (ks : Keyspace) (name : String)
    (fields : List (String × Column)) (db_map : List (String × String)) : Keyspace :=
  { ks with tables := alSet ks.tables name (Table.create name fields db_map) }

/-- `Keyspace.get_table` (`self._tables[table_name]`); `none` is the
`KeyError`. -/
def Keyspace.get_table (ks : Keyspace) (table_name : String) : Option Table :=
  List.lookup table_name ks.tables

/-- The module-level state of `connection.py`: the `_keyspaces` registry
and the separate module-level `_entries = defaultdict(list)` store used by
`flush`, `lookup_items` and the delete-with-fields path of
`DMLQuery._execute`.  (Nothing in the module ever adds a row to
`entriesStore`: `_entries.get(name, [])` does not materialize entries.) -/
structure GlobalState where
  keyspaces : List (String × Keyspace)
  entriesStore : List (String × List Row)
deriving DecidableEq, Repr

/-- `create_keyspace`: register a fresh empty keyspace, overwriting any
prior one of the same name. -/
def create_keyspace (g : GlobalState) (name : String) : GlobalState :=
  { g with keyspaces := alSet g.keyspaces name { name := name, tables := [] } }

/-- `get_keyspace` (`_keyspaces[ks_name]`); `none` is the `KeyError`. -/
def get_keyspace (g : GlobalState) (ks_name : String) : Option Keyspace :=
  List.lookup ks_name g.keyspaces

/-- `flush`: rebind the module-level `_entries` to a fresh empty
`defaultdict(list)`.  The keyspace registry — and therefore every `Table`
and its rows — is not touched. -/
def flush (g : GlobalState) : GlobalState :=
  { g with entriesStore := [] }

/-- `clauses_to_dict`: fold the assignment/where clauses into a dict,
later clauses overwriting earlier ones with the same field. -/
def clauses_to_dict (assignments : List (String × Value)) : Row :=
  assignments.foldl (fun acc p => alSet acc p.1 p.2) []

/-- `attributes_matched`: an empty lookup dict matches nothing; otherwise
every lookup key must be present in the source dict with an equal value. -/
def attributes_matched (source_dict lookup_dict : Row) : Bool :=
  if lookup_dict.isEmpty then false
  else lookup_dict.all (fun p =>
    match List.lookup p.1 source_dict with
    | none => false
    | some w => w.beq p.2)

/-- The `enumerate` loop of `lookup_items`. -/
def lookupItemsLoop (d : Row) (noAssignments : Bool) : Nat → List Row → List Nat
  | _, [] => []
  | i, item :: rest =>
      if attributes_matched item d || noAssignments then
        i :: lookupItemsLoop d noAssignments (i + 1) rest
      else lookupItemsLoop d noAssignments (i + 1) rest

/-- `lookup_items`: scan the module-level `_entries[tbl_name]` (empty when
the key is absent) for rows matching the where clauses; with no clauses
every row matches. -/
def lookup_items (g : GlobalState) (tbl_name : String)
    (assignments : List (String × Value)) : List Nat :=
  lookupItemsLoop (clauses_to_dict assignments) assignments.isEmpty 0
    ((List.lookup tbl_name g.entriesStore).getD [])

/-- Python `s.split('.')` over the string's characters (the library
`String.splitOn` does not reduce in the kernel). -/
def splitDots : List Char → List (List Char)
  | [] => [[]]
  | c :: rest =>
      match splitDots rest, decide (c = '.') with
      | r, true => [] :: r
      | [], false => [[c]]
      | h :: t, false => (c :: h) :: t

/-- `_get_ks_table_name`: an explicit `keyspace.table` statement table
overrides the model keyspace; a table name with more than one dot makes
the two-target unpacking of `split('.')` raise (`none`). -/
def get_ks_table_name (model_ks stmt_table : String) : Option (String × String) :=
  match splitDots stmt_table.data with
  | [_] => some (model_ks, stmt_table)
  | [a, b] => some (String.mk a, String.mk b)
  | _ => none

/-- Replace one table of one keyspace in the registry (the in-place
mutation of a `Table` object reached through the registry). -/
def setTable (g : GlobalState) (ksName tblName : String) (tbl : Table) : GlobalState :=
  match List.lookup ksName g.keyspaces with
  | none => g
  | some ks =>
      { g with keyspaces :=
          alSet g.keyspaces ksName { ks with tables := alSet ks.tables tblName tbl } }

/-- The field-writing loop of the delete-with-fields branch of
`DMLQuery._execute`: for each matched index and each statement field,
write the field value into the same-indexed row of the module-level
store — guarded by a live bounds check on that store. -/
def applyFieldWrites (rows : List Row) (indices : List Nat)
    (fields : List (String × Value)) : List Row :=
  indices.foldl
    (fun rs i =>
      fields.foldl
        (fun rs2 fv =>
          if i < rs2.length then List.modify (fun r => alSet r fv.1 fv.2) i rs2 else rs2)
        rs)
    rows

/-- The `DeleteStatement` branch of `DMLQuery._execute`: resolve the
keyspace and table (raising `KeyError` if unregistered), then either —
when the statement carries explicit fields — run `lookup_items` over the
module-level store and write the field values into its same-indexed rows
(the `Table` itself is never touched), or — without fields — forward to
`Table.delete` with the where clauses and no `if_exists`. -/
def DMLQuery_execute_delete (g : GlobalState) (model_ks stmt_table : String)
    (where_clauses fields : List (String × Value)) : Except DBError Unit × GlobalState :=
  match get_ks_table_name model_ks stmt_table with
  | none => (.error .runtime, g)
  | some (ksName, tblName) =>
      match get_keyspace g ksName with
      | none => (.error .keyError, g)
      | some ks =>
          match ks.get_table tblName with
          | none => (.error .keyError, g)
          | some tbl =>
              let indices := lookup_items g stmt_table where_clauses
              if fields.isEmpty then
                match tbl.delete (clauses_to_dict where_clauses) false with
                | (res, tbl2) => (res, setTable g ksName tblName tbl2)
              else
                match List.lookup stmt_table g.entriesStore with
                | none => (.ok (), g)
                | some rows =>
                    let store2 := alSet g.entriesStore stmt_table
                      (applyFieldWrites rows indices fields)
                    (.ok (), { g with entriesStore := store2 })

/-- Python truthiness of a stored value (`if not value: return value` in the
container normalizers). -/
def pyFalsy : Value → Bool
  | .scalar .null => true
  | .scalar (.num q) => decide (q = 0)
  | .scalar (.str s) => decide (s = "")
  | .scalar (.calDate _) => false
  | .scalar (.calDatetime _) => false
  | .vlist xs => xs.isEmpty
  | .vset xs => xs.isEmpty
  | .vmap xs => xs.isEmpty

/-- `normalize_datetime`: `dt / 1e3`.  The stored epoch-milliseconds number
becomes an epoch-seconds number (no calendar object is constructed). -/
def normalize_datetime (dt : ℚ) : ℚ :=
  dt / 1000

/-- `SimpleDateType.EPOCH_OFFSET_DAYS`. -/
def EPOCH_OFFSET_DAYS : ℚ := 2147483648

/-- Normalization of one container element through its element column's
formatter (`normalize_value(v, value_type)` inside `process_*`): a plain
element column has no registered formatter and passes through; the
timestamp/date formatters divide by `1e3` / build a `datetime.date`, and
raise a `TypeError` on a non-numeric value. -/
def normalize_elem : ElemKind → Scalar → Option Scalar
  | .plain, s => some s
  | .edt, .num q => some (.num (normalize_datetime q))
  | .edt, _ => none
  | .edate, .num q => some (.calDate (q - EPOCH_OFFSET_DAYS))
  | .edate, _ => none

/-- Normalization of a map key (`normalize_value(k, key_type)` inside
`process_map`): keys in this code are strings, so a non-plain key column's
formatter raises. -/
def normalize_map_key : ElemKind → String → Option String
  | .plain, k => some k
  | _, _ => none

/-- `normalize_value` together with `get_formatter`: dispatch on the
column's type.  A column type with no entry in `format_normalizers` is the
identity; `DateTime` applies `normalize_datetime`; `Date` builds a
`datetime.date` from the stored day offset; the container formatters
return falsy values unchanged and otherwise normalize element-wise (the
set comprehension deduplicates).  `none` marks a `TypeError` on a value of
the wrong shape. -/
def normalize_value (value : Value) (kind : ColKind) : Option Value :=
  match kind with
  | .plain => some value
  | .dt =>
      match value with
      | .scalar (.num q) => some (.scalar (.num (normalize_datetime q)))
      | _ => none
  | .date =>
      match value with
      | .scalar (.num q) => some (.scalar (.calDate (q - EPOCH_OFFSET_DAYS)))
      | _ => none
  | .clist e =>
      if pyFalsy value then some value
      else
        match value with
        | .vlist xs => (traverseOpt (normalize_elem e) xs).map Value.vlist
        | _ => none
  | .cset e =>
      if pyFalsy value then some value
      else
        match value with
        | .vset xs => (traverseOpt (normalize_elem e) xs).map
            (fun l => Value.vset l.eraseDups)
        | _ => none
  | .cmap ke ve =>
      if pyFalsy value then some value
      else
        match value with
        | .vmap xs => (traverseOpt
            (fun p => (normalize_map_key ke p.1).bind
              (fun k2 => (normalize_elem ve p.2).map (fun w => (k2, w)))) xs).map
            (fun l => Value.vmap (l.foldl (fun acc p => alSet acc p.1 p.2) []))
        | _ => none

/-- `Value.isCalDatetime`: is this value a Python `datetime.datetime`
object? -/
def Value.isCalDatetime : Value → Bool
  | .scalar (.calDatetime _) => true
  | _ => false

/-- The primary-key tuple of a row: the row's values at the primary-key
columns, in the fixed iteration order (the `pks` list that `insert` builds
and `_find_by_pk` consumes). -/
def Table.pkProj (t : Table) (r : Row) : List Value :=
  t.primaryKeyNames.map (fun nm => rowGetD r nm)

/-- Two rows share the same primary-key tuple: their values agree
(under Python `==`) on every primary-key column. -/
def Table.pkShare (t : Table) (r1 r2 : Row) : Bool :=
  t.primaryKeyNames.all (fun nm => (rowGetD r1 nm).beq (rowGetD r2 nm))

/-- Specification-side uniqueness invariant: no two stored rows share the
same primary-key tuple. -/
def Table.PkDistinct (t : Table) : Prop :=
  ∀ i j : Nat, i < t.entries.length → j < t.entries.length → i ≠ j →
    ¬ t.pkShare (t.entries.getD i []) (t.entries.getD j []) = true

/-- Specification-side description of an unbounded filter scan: the indices
of the rows matching `kwargs`, in insertion order, counting from `i`
("limit = None returns all matching rows, in insertion order"). -/
def matchingIndices (kwargs : Row) : Nat → List Row → List Nat
  | _, [] => []
  | i, e :: rest =>
      if rowMatchesKwargs kwargs e then i :: matchingIndices kwargs (i + 1) rest
      else matchingIndices kwargs (i + 1) rest

/-! ### Concrete fixtures used by witnesses and counterexamples -/

/-- An integer primary-key column `id`. -/
def colId : Column := { dbField := "id", primaryKey := true, kind := .plain }

/-- A plain scalar column `a`. -/
def colA : Column := { dbField := "a", primaryKey := false, kind := .plain }

/-- An ordered-list column `tags`. -/
def colTags : Column := { dbField := "tags", primaryKey := false, kind := .clist .plain }

/-- A unique-set column `skills`. -/
def colSkills : Column := { dbField := "skills", primaryKey := false, kind := .cset .plain }

/-- A timestamp column `created`. -/
def colCreated : Column := { dbField := "created", primaryKey := false, kind := .dt }

/-- The row `{id: 7, a: 5, tags: [], skills: {}}`. -/
def rowEx : Row :=
  [("id", .scalar (.num 7)), ("a", .scalar (.num 5)),
   ("tags", .vlist []), ("skills", .vset [])]

/-- A table with primary key `(id)` and scalar/list/set payload columns. -/
def tblPK : Table :=
  Table.create "t" [("id", colId), ("a", colA), ("tags", colTags), ("skills", colSkills)] []

/-- A table declaring zero primary-key columns. -/
def tblNoPK : Table := Table.create "z" [("a", colA)] []

/-- `tblNoPK` holding two rows (as two a-filter-distinguishable inserts
would leave it if identity were not enforced). -/
def tbl2Rows : Table :=
  { tblNoPK with entries := [[("a", .scalar (.num 1))], [("a", .scalar (.num 2))]] }

/-- `tblPK` holding the single row `{id: 7, a: 5, tags: [], skills: {}}`. -/
def tblOneRow : Table :=
  { tblPK with entries :=
      [[("id", .scalar (.num 7)), ("a", .scalar (.num 5)),
        ("tags", .vlist []), ("skills", .vset [])]] }

/-- A registry state holding one keyspace `ks` whose table `t` stores one
row, with the module-level store empty — the only shape the module-level
store ever takes, since nothing in `connection.py` writes rows into it. -/
def gOneRow : GlobalState :=
  { keyspaces := [("ks", { name := "ks", tables := [("t", tblOneRow)] })],
    entriesStore := [] }

/-! ### Helper lemmas -/

theorem lookup_isSome_of_mem_keys {α : Type} {l : List (String × α)} {k : String}
    (h : k ∈ l.map Prod.fst) : (List.lookup k l).isSome := by
  induction l with
  | nil => simp at h
  | cons p rest ih =>
      by_cases hk : k = p.1
      · have hb : (k == p.1) = true := by simp [hk]
        simp [List.lookup, hb]
      · have hb : (k == p.1) = false := by simp [hk]
        have hm : k ∈ rest.map Prod.fst := by
          simp only [List.map_cons, List.mem_cons] at h
          rcases h with h | h
          · exact absurd h hk
          · exact h
        simpa [List.lookup, hb] using ih hm

theorem mem_keys_of_lookup_eq_some {α : Type} {l : List (String × α)} {k : String} {v : α}
    (h : List.lookup k l = some v) : k ∈ l.map Prod.fst := by
  induction l with
  | nil => simp [List.lookup] at h
  | cons p rest ih =>
      by_cases hk : k = p.1
      · simp [hk]
      · have hb : (k == p.1) = false := by simp [hk]
        simp only [List.lookup, hb] at h
        simp only [List.map_cons, List.mem_cons]
        exact Or.inr (ih h)

theorem Value.beq_refl (v : Value) : v.beq v = true := by
  cases v with
  | scalar a => simp [Value.beq]
  | vlist xs => simp [Value.beq]
  | vset xs =>
      simp only [Value.beq, Bool.and_eq_true, List.all_eq_true]
      exact ⟨fun e he => List.elem_eq_true_of_mem he, fun e he => List.elem_eq_true_of_mem he⟩
  | vmap xs => simp [Value.beq, List.all_eq_true]

theorem Value.beq_symm {a b : Value} (h : a.beq b = true) : b.beq a = true := by
  cases a <;> cases b <;> simp only [Value.beq] at h ⊢ <;> try exact h
  case scalar.scalar x y =>
      have hxy := eq_of_beq h
      subst hxy; exact h
  case vlist.vlist xs ys =>
      have hxy := eq_of_beq (a := xs) (b := ys) h
      subst hxy; exact h
  case vset.vset xs ys =>
      simp only [Bool.and_eq_true] at h ⊢
      exact ⟨h.2, h.1⟩
  case vmap.vmap xs ys =>
      simp only [List.all_eq_true, List.mem_append, beq_iff_eq] at h ⊢
      intro k hk
      rcases hk with hk | hk
      · exact (h k (Or.inr hk)).symm
      · exact (h k (Or.inl hk)).symm

theorem Value.beq_trans {a b c : Value} (hab : a.beq b = true) (hbc : b.beq c = true) :
    a.beq c = true := by
  cases a <;> cases b <;> cases c <;> simp only [Value.beq] at hab hbc ⊢ <;>
    first
    | exact hab
    | exact hbc
    | exact absurd hab Bool.false_ne_true
    | exact absurd hbc Bool.false_ne_true
    | skip
  case scalar.scalar.scalar x y z =>
      have h1 := eq_of_beq hab
      subst h1; exact hbc
  case vlist.vlist.vlist xs ys zs =>
      have h1 := eq_of_beq (a := xs) (b := ys) hab
      subst h1; exact hbc
  case vset.vset.vset xs ys zs =>
      simp only [Bool.and_eq_true, List.all_eq_true] at hab hbc ⊢
      obtain ⟨hxy, hyx⟩ := hab
      obtain ⟨hyz, hzy⟩ := hbc
      refine ⟨fun e he => ?_, fun e he => ?_⟩
      · exact hyz e (List.mem_of_elem_eq_true (hxy e he))
      · exact hyx e (List.mem_of_elem_eq_true (hzy e he))
  case vmap.vmap.vmap xs ys zs =>
      simp only [List.all_eq_true, List.mem_append, beq_iff_eq] at hab hbc ⊢
      intro k hk
      rcases hk with hk | hk
      · have h1 := hab k (Or.inl hk)
        rcases Option.isSome_iff_exists.mp (lookup_isSome_of_mem_keys hk) with ⟨v, hv⟩
        have hky : k ∈ ys.map Prod.fst :=
          mem_keys_of_lookup_eq_some (v := v) (by rw [← h1, hv])
        exact h1.trans (hbc k (Or.inl hky))
      · have h2 := hbc k (Or.inr hk)
        rcases Option.isSome_iff_exists.mp (lookup_isSome_of_mem_keys hk) with ⟨v, hv⟩
        have hky : k ∈ ys.map Prod.fst :=
          mem_keys_of_lookup_eq_some (v := v) (by rw [h2, hv])
        exact (hab k (Or.inr hky)).trans h2

section DictLemmas

variable {α : Type}

theorem lookup_append {l1 l2 : List (String × α)} {k : String} :
    List.lookup k (l1 ++ l2)
      = match List.lookup k l1 with
        | some v => some v
        | none => List.lookup k l2 := by
  induction l1 with
  | nil => simp [List.lookup]
  | cons p rest ih =>
      by_cases hk : k = p.1
      · have hb : (k == p.1) = true := by simp [hk]
        simp [List.lookup, hb]
      · have hb : (k == p.1) = false := by simp [hk]
        simp [List.lookup, hb, ih]

theorem lookup_eq_none_of_not_any {l : List (String × α)} {k : String}
    (h : l.any (fun p => p.1 == k) = false) : List.lookup k l = none := by
  induction l with
  | nil => simp [List.lookup]
  | cons p rest ih =>
      simp only [List.any_cons, Bool.or_eq_false_iff] at h
      have hb : (k == p.1) = false := by
        cases hpk : (p.1 == k)
        · simp only [beq_eq_false_iff_ne, ne_eq] at hpk ⊢
          exact fun he => hpk he.symm
        · rw [hpk] at h; exact absurd h.1 (by simp)
      simp [List.lookup, hb, ih h.2]

theorem replaceKey_id {l : List (String × α)} {k : String} {v : α}
    (h : l.any (fun p => p.1 == k) = false) : replaceKey k v l = l := by
  induction l with
  | nil => rfl
  | cons p rest ih =>
      simp only [List.any_cons, Bool.or_eq_false_iff] at h
      simp only [replaceKey, List.map_cons, h.1]
      have := ih h.2
      simp only [replaceKey] at this
      rw [this]

theorem lookup_replaceKey_self {l : List (String × α)} {k : String} {v : α}
    (h : l.any (fun p => p.1 == k) = true) :
    List.lookup k (replaceKey k v l) = some v := by
  induction l with
  | nil => simp at h
  | cons p rest ih =>
      by_cases hk : p.1 = k
      · have hb : (p.1 == k) = true := by simp [hk]
        have hb2 : (k == k) = true := by simp
        simp [replaceKey, List.lookup, hb, hb2]
      · have hb : (p.1 == k) = false := by simp [hk]
        have hb2 : (k == p.1) = false := by
          simp only [beq_eq_false_iff_ne, ne_eq]
          exact fun he => hk he.symm
        simp only [List.any_cons, hb, Bool.false_or] at h
        simp only [replaceKey, List.map_cons, hb, List.lookup, hb2]
        exact ih h

theorem lookup_replaceKey_ne {l : List (String × α)} {k k2 : String} {v : α}
    (h : k2 ≠ k) : List.lookup k2 (replaceKey k v l) = List.lookup k2 l := by
  induction l with
  | nil => rfl
  | cons p rest ih =>
      simp only [replaceKey, List.map_cons] at ih ⊢
      by_cases hk : p.1 = k
      · have hb : (p.1 == k) = true := by simp [hk]
        have hb2 : (k2 == p.1) = false := by
          simp only [beq_eq_false_iff_ne, ne_eq, hk]
          exact h
        have hb3 : (k2 == k) = false := by simp [h]
        simp only [hb, List.lookup, hb2, hb3]
        exact ih
      · have hb : (p.1 == k) = false := by simp [hk]
        by_cases hk2 : k2 = p.1
        · have hb2 : (k2 == p.1) = true := by simp [hk2]
          simp only [hb, List.lookup, hb2]
        · have hb2 : (k2 == p.1) = false := by simp [hk2]
          simp only [hb, List.lookup, hb2]
          exact ih

theorem lookup_alSet_self (l : List (String × α)) (k : String) (v : α) :
    List.lookup k (alSet l k v) = some v := by
  unfold alSet
  by_cases hany : l.any (fun p => p.1 == k) = true
  · rw [if_pos hany]
    exact lookup_replaceKey_self hany
  · rw [if_neg hany]
    have hf : l.any (fun p => p.1 == k) = false := by
      cases hx : l.any (fun p => p.1 == k)
      · rfl
      · exact absurd hx hany
    rw [lookup_append]
    rw [lookup_eq_none_of_not_any hf]
    simp [List.lookup]

theorem lookup_alSet_ne (l : List (String × α)) (k k2 : String) (v : α)
    (h : k2 ≠ k) : List.lookup k2 (alSet l k v) = List.lookup k2 l := by
  unfold alSet
  by_cases hany : l.any (fun p => p.1 == k) = true
  · rw [if_pos hany]
    exact lookup_replaceKey_ne h
  · rw [if_neg hany]
    rw [lookup_append]
    have hb3 : (k2 == k) = false := by simp [h]
    cases hlk : List.lookup k2 l with
    | some w => simp
    | none => simp [List.lookup, hb3]

theorem any_replaceKey {l : List (String × α)} {k : String} {v : α}
    (h : l.any (fun p => p.1 == k) = true) :
    (replaceKey k v l).any (fun p => p.1 == k) = true := by
  rcases List.any_eq_true.mp h with ⟨p, hp, hpk⟩
  refine List.any_eq_true.mpr ⟨(k, v), ?_, by simp⟩
  exact List.mem_map.mpr ⟨p, hp, by simp [replaceKey, hpk]⟩

theorem replaceKey_replaceKey (l : List (String × α)) (k : String) (v w : α) :
    replaceKey k v (replaceKey k w l) = replaceKey k v l := by
  induction l with
  | nil => rfl
  | cons p rest ih =>
      simp only [replaceKey, List.map_cons] at ih ⊢
      by_cases hk : p.1 = k
      · have hb : (p.1 == k) = true := by simp [hk]
        have hbk : (k == k) = true := by simp
        simp only [hb, hbk, ih]
      · have hb : (p.1 == k) = false := by simp [hk]
        simp only [hb, ih]

theorem alSet_idem (l : List (String × α)) (k : String) (v : α) :
    alSet (alSet l k v) k v = alSet l k v := by
  unfold alSet
  by_cases hany : l.any (fun p => p.1 == k) = true
  · rw [if_pos hany, if_pos (any_replaceKey hany)]
    exact replaceKey_replaceKey l k v v
  · rw [if_neg hany]
    have hany2 : ((l ++ [(k, v)]).any (fun p => p.1 == k)) = true := by simp
    rw [if_pos hany2]
    have hf : l.any (fun p => p.1 == k) = false := by
      cases hx : l.any (fun p => p.1 == k)
      · rfl
      · exact absurd hx hany
    show replaceKey k v (l ++ [(k, v)]) = l ++ [(k, v)]
    have h1 : replaceKey k v (l ++ [(k, v)]) = replaceKey k v l ++ replaceKey k v [(k, v)] := by
      simp [replaceKey]
    rw [h1, replaceKey_id hf]
    simp [replaceKey]

theorem alSet_self_of_lookup {l : List (String × α)} {k : String} {v : α}
    (hnd : (l.map Prod.fst).Nodup) (h : List.lookup k l = some v) :
    alSet l k v = l := by
  unfold alSet
  have hany : l.any (fun p => p.1 == k) = true := by
    refine List.any_eq_true.mpr ?_
    rcases List.mem_map.mp (mem_keys_of_lookup_eq_some h) with ⟨p, hp, hpk⟩
    exact ⟨p, hp, by simp [hpk]⟩
  rw [if_pos hany]
  induction l with
  | nil => simp at hany
  | cons p rest ih =>
      simp only [List.map_cons, List.nodup_cons] at hnd
      by_cases hk : p.1 = k
      · have hb : (p.1 == k) = true := by simp [hk]
        have hb2 : (k == p.1) = true := by simp [hk]
        simp only [List.lookup, hb2] at h
        have hnone : rest.any (fun q => q.1 == k) = false := by
          cases hq : rest.any (fun q => q.1 == k)
          · rfl
          · rcases List.any_eq_true.mp hq with ⟨q, hqm, hqk⟩
            exfalso
            apply hnd.1
            have hqk2 : q.1 = k := by simpa using hqk
            rw [← hk] at hqk2
            exact hqk2 ▸ List.mem_map.mpr ⟨q, hqm, rfl⟩
        have hrest := replaceKey_id (l := rest) (k := k) (v := v) hnone
        have hp : p = (k, v) := by
          cases p with
          | mk a b =>
              simp only at hk
              injection h with hv
              subst hk
              subst hv
              rfl
        simp only [replaceKey, List.map_cons, hb]
        simp only [replaceKey] at hrest
        rw [hrest, hp]
      · have hb : (p.1 == k) = false := by simp [hk]
        have hb2 : (k == p.1) = false := by
          simp only [beq_eq_false_iff_ne, ne_eq]
          exact fun he => hk he.symm
        simp only [List.lookup, hb2] at h
        simp only [List.any_cons, hb, Bool.false_or] at hany
        have := ih hnd.2 h hany
        simp only [replaceKey, List.map_cons, hb]
        simp only [replaceKey] at this
        rw [this]

theorem length_alSet_of_any {l : List (String × α)} {k : String} {v : α}
    (h : l.any (fun p => p.1 == k) = true) :
    (alSet l k v).length = l.length := by
  unfold alSet
  rw [if_pos h]
  simp [replaceKey]

end DictLemmas

theorem traverseOpt_length {α β : Type} {f : α → Option β} {l : List α} {r : List β}
    (h : traverseOpt f l = some r) : r.length = l.length := by
  induction l generalizing r with
  | nil => simp [traverseOpt] at h; simp [← h]
  | cons a as ih =>
      unfold traverseOpt at h
      cases hfa : f a with
      | none => rw [hfa] at h; exact absurd h (by simp)
      | some b =>
          rw [hfa] at h
          cases hrest : traverseOpt f as with
          | none => rw [hrest] at h; exact absurd h (by simp)
          | some bs =>
              rw [hrest] at h
              simp only [Option.some_inj] at h
              subst h
              simp [ih hrest]

/-! ### Claim theorems -/

/-- C10: for every keyspace, `add_table` with a table name that already
exists silently replaces the existing `Table` by a freshly constructed
empty one — no error is raised, all rows previously stored under the name
are discarded, and other table names are unaffected. -/
theorem C10_add_table_replaces_existing (ks : Keyspace) (name : String)
    (fields : List (String × Column)) (db_map : List (String × String))
    (told : Table) (h : ks.get_table name = some told) :
    (ks.add_table name fields db_map).get_table name
        = some (Table.create name fields db_map)
    ∧ (Table.create name fields db_map).entries = []
    ∧ ∀ other : String, other ≠ name →
        (ks.add_table name fields db_map).get_table other = ks.get_table other := by
  refine ⟨?_, rfl, ?_⟩
  · unfold Keyspace.add_table Keyspace.get_table
    exact lookup_alSet_self _ _ _
  · intro other ho
    unfold Keyspace.add_table Keyspace.get_table
    exact lookup_alSet_ne _ _ _ _ ho

/-- Witness for C10 at a concrete keyspace already holding a table `t`
with one row: re-adding `t` rebinds it to a fresh empty table and leaves
table `u` alone. -/
theorem C10_add_table_replaces_existing_witness :
    ((Keyspace.mk "ks" [("t", tblOneRow), ("u", tblNoPK)]).add_table "t"
        [("id", colId)] []).get_table "t"
      = some (Table.create "t" [("id", colId)] [])
    ∧ (Table.create "t" [("id", colId)] []).entries = []
    ∧ ((Keyspace.mk "ks" [("t", tblOneRow), ("u", tblNoPK)]).add_table "t"
        [("id", colId)] []).get_table "u"
      = (Keyspace.mk "ks" [("t", tblOneRow), ("u", tblNoPK)]).get_table "u" := by
  have h := C10_add_table_replaces_existing
    (Keyspace.mk "ks" [("t", tblOneRow), ("u", tblNoPK)]) "t"
    [("id", colId)] [] tblOneRow (by decide)
  exact ⟨h.1, h.2.1, h.2.2 "u" (by decide)⟩

/-- C6 (the code contradicts the claim): `flush()` is specified to clear
all row data of every table of every registered keyspace while keeping
schemas.  The implementation only rebinds the vestigial module-level
`_entries` store: after `flush` the registry is untouched, table `t` of
keyspace `ks` still holds its row, and a filterless `find` still returns
it. -/
theorem C6_flush_leaves_table_rows :
    (flush gOneRow).keyspaces = gOneRow.keyspaces
    ∧ ((get_keyspace (flush gOneRow) "ks").bind
        (fun ks => ks.get_table "t")) = some tblOneRow
    ∧ ((get_keyspace (flush gOneRow) "ks").bind
        (fun ks => ks.get_table "t")).map
          (fun t => t.find [] none ["id", "a"])
      = some (some [[("id", .scalar (.num 7)), ("a", .scalar (.num 5))]])
    ∧ tblOneRow.entries ≠ [] := by
  refine ⟨rfl, by decide, by decide, by decide⟩

/-- C7, part 1 (counterexample): timestamp normalization of the stored
epoch-millisecond value `2000` yields the number `2` — an epoch-seconds
number, not a calendar datetime, and not equal to the stored value. -/
theorem C7_counterexample :
    normalize_value (.scalar (.num 2000)) .dt = some (.scalar (.num 2))
    ∧ (normalize_value (.scalar (.num 2000)) .dt).map Value.isCalDatetime
        = some false
    ∧ normalize_value (.scalar (.num 2000)) .dt ≠ some (.scalar (.num 2000)) := by
  have h1 : normalize_value (.scalar (.num 2000)) .dt
      = some (.scalar (.num ((2000 : ℚ) / 1000))) := rfl
  have h2 : (2000 : ℚ) / 1000 = 2 := by norm_num
  refine ⟨by rw [h1, h2], by rw [h1]; rfl, by rw [h1, h2]; simp⟩

/-- C7 as amended: for every `DateTime` column, read-path normalization
divides the stored epoch-milliseconds number by `1000`, returning an
epoch-seconds number (`normalize_datetime`); no calendar datetime is
constructed by this layer, so a stored value `q` reads back as
`q / 1000`. -/
theorem C7_amended (q : ℚ) :
    normalize_value (.scalar (.num q)) .dt
      = some (.scalar (.num (normalize_datetime q)))
    ∧ normalize_datetime q = q / 1000
    ∧ (normalize_value (.scalar (.num q)) .dt).map Value.isCalDatetime
        = some false := by
  refine ⟨rfl, rfl, rfl⟩

/-- C8, part 1 (counterexample): two successful inserts into the empty
zero-primary-key table leave one stored row (the second insert replaced
the first row), not the two rows the claim predicts. -/
theorem C8_counterexample :
    (tblNoPK.insert [("a", .scalar (.num 1))] false).1 = .ok ()
    ∧ ((tblNoPK.insert [("a", .scalar (.num 1))] false).2.insert
        [("a", .scalar (.num 2))] false).1 = .ok ()
    ∧ (((tblNoPK.insert [("a", .scalar (.num 1))] false).2.insert
        [("a", .scalar (.num 2))] false).2).entries
      = [[("a", .scalar (.num 2))]] := by
  refine ⟨by decide, by decide, by decide⟩

/-- C8 as amended: in a table declaring zero primary-key columns the empty
primary-key tuple vacuously matches the first stored row, so `insert`
appends only into an empty table; once any row is stored, every further
insert replaces row 0 in place (and raises `LWTException` under
`if_not_exists`), so rows do not accumulate. -/
theorem C8_amended (t : Table) (v : Row) (h : t.primaryKeyNames = []) :
    (t.insert v false).1 = .ok ()
    ∧ (t.insert v false).2.entries
        = (match t.entries with
           | [] => [t.newEntry v]
           | _ :: rest => t.newEntry v :: rest)
    ∧ (t.entries ≠ [] → (t.insert v true).1 = .error .lwt) := by
  cases hent : t.entries with
  | nil =>
      refine ⟨?_, ?_, fun hc => absurd rfl hc⟩ <;>
        simp [Table.insert, Table._find_by_pk, Table.pkMatch, h, hent, findIdxFrom]
  | cons e rest =>
      refine ⟨?_, ?_, fun _ => ?_⟩ <;>
        simp [Table.insert, Table._find_by_pk, Table.pkMatch, h, hent, findIdxFrom]

/-- Witness for C8's amended statement: inserting into the empty
zero-primary-key table appends; a conditional insert into the same table
holding rows conflicts. -/
theorem C8_amended_witness :
    (tblNoPK.insert [("a", .scalar (.num 3))] false).1 = .ok ()
    ∧ (tblNoPK.insert [("a", .scalar (.num 3))] false).2.entries
        = [tblNoPK.newEntry [("a", .scalar (.num 3))]]
    ∧ (tbl2Rows.insert [("a", .scalar (.num 3))] true).1 = .error .lwt := by
  have h1 := C8_amended tblNoPK [("a", .scalar (.num 3))] (by decide)
  have h2 := C8_amended tbl2Rows [("a", .scalar (.num 3))] (by decide)
  exact ⟨h1.1, h1.2.1, h2.2.2 (by decide)⟩

theorem applyAssignmentsAt_ne_lwt (t : Table) (i : Nat)
    (vals : List (String × String × Value)) (es : List Row) :
    (t.applyAssignmentsAt i vals es).1 ≠ .error .lwt := by
  induction vals generalizing es with
  | nil => simp [Table.applyAssignmentsAt]
  | cons hd rest ih =>
      obtain ⟨attr, op, v⟩ := hd
      simp only [Table.applyAssignmentsAt]
      by_cases hmem : attr ∈ t.columnNames
      · rw [if_pos hmem]
        cases hassign : t._assign_value es i attr op v with
        | none => simp
        | some es2 => exact ih es2
      · rw [if_neg hmem]
        exact ih es

theorem applyAtIndices_ne_lwt (t : Table) (vals : List (String × String × Value))
    (idxs : List Nat) (es : List Row) :
    (t.applyAtIndices vals idxs es).1 ≠ .error .lwt := by
  induction idxs generalizing es with
  | nil => simp [Table.applyAtIndices]
  | cons i rest ih =>
      simp only [Table.applyAtIndices]
      cases happ : t.applyAssignmentsAt i vals es with
      | mk r es2 =>
          cases r with
          | error e =>
              have hne := applyAssignmentsAt_ne_lwt t i vals es
              rw [happ] at hne
              simpa using hne
          | ok u => simpa using ih es2

/-- C2 as amended: `LWTException` is raised exactly when — `insert` with
`if_not_exists` passes the primary-key presence check and `_find_by_pk`
finds an existing row with the same primary-key tuple; `update` with
`if_exists` matches zero rows (this includes an empty filter on an empty
table, where `range(0)` is falsy — the original claim required a non-empty
filter); `delete` with `if_exists` matches zero rows under a non-empty
filter (an empty filter truncates without a conflict).  Whenever the
conflict is raised the table is left completely unchanged. -/
theorem C2_amended (t : Table) (v fs : Row)
    (vals : List (String × String × Value)) (b : Bool) :
    ((t.insert v b).1 = .error .lwt ↔
      (b = true
        ∧ t.primaryKeyNames.any
            (fun pk => decide (rowGetD (t.newEntry v) pk = .scalar .null)) = false
        ∧ t._find_by_pk
            (t.primaryKeyNames.map (fun pk => rowGetD (t.newEntry v) pk)) ≠ none))
    ∧ ((t.update fs vals b).1 = .error .lwt ↔
        (b = true ∧ t._get_indices_by_kwargs none fs = []))
    ∧ ((t.delete fs b).1 = .error .lwt ↔
        (b = true ∧ fs ≠ [] ∧ t._get_indices_by_kwargs none fs = []))
    ∧ ((t.insert v b).1 = .error .lwt → (t.insert v b).2 = t)
    ∧ ((t.update fs vals b).1 = .error .lwt → (t.update fs vals b).2 = t)
    ∧ ((t.delete fs b).1 = .error .lwt → (t.delete fs b).2 = t) := by
  have hins : ((t.insert v b).1 = .error .lwt ↔
      (b = true
        ∧ t.primaryKeyNames.any
            (fun pk => decide (rowGetD (t.newEntry v) pk = .scalar .null)) = false
        ∧ t._find_by_pk
            (t.primaryKeyNames.map (fun pk => rowGetD (t.newEntry v) pk)) ≠ none))
      ∧ ((t.insert v b).1 = .error .lwt → (t.insert v b).2 = t) := by
    unfold Table.insert
    cases hchk : t.primaryKeyNames.any
        (fun pk => decide (rowGetD (t.newEntry v) pk = .scalar .null)) with
    | true => simp [hchk]
    | false =>
        cases hfind : t._find_by_pk
            (t.primaryKeyNames.map (fun pk => rowGetD (t.newEntry v) pk)) with
        | some idx => cases b <;> simp [hchk, hfind]
        | none => cases b <;> simp [hchk, hfind]
  have hupd : ((t.update fs vals b).1 = .error .lwt ↔
      (b = true ∧ t._get_indices_by_kwargs none fs = []))
      ∧ ((t.update fs vals b).1 = .error .lwt → (t.update fs vals b).2 = t) := by
    simp only [Table.update]
    by_cases hidx : t._get_indices_by_kwargs none fs = []
    · rw [hidx]
      cases b with
      | true => simp
      | false => simp [Table.applyAtIndices]
    · have hne : (t._get_indices_by_kwargs none fs).isEmpty = false := by
        cases hx : t._get_indices_by_kwargs none fs with
        | nil => exact absurd hx hidx
        | cons a as => simp
      rw [hne]
      cases happ : t.applyAtIndices vals (t._get_indices_by_kwargs none fs) t.entries with
      | mk r es2 =>
          have hnl := applyAtIndices_ne_lwt t vals (t._get_indices_by_kwargs none fs) t.entries
          rw [happ] at hnl
          simp only [Bool.false_and, Bool.and_eq_true] at *
          constructor
          · constructor
            · intro hr; exact absurd hr (by simpa using hnl)
            · intro hr; exact absurd hr.2 hidx
          · intro hr; exact absurd hr (by simpa using hnl)
  have hdel : ((t.delete fs b).1 = .error .lwt ↔
      (b = true ∧ fs ≠ [] ∧ t._get_indices_by_kwargs none fs = []))
      ∧ ((t.delete fs b).1 = .error .lwt → (t.delete fs b).2 = t) := by
    simp only [Table.delete]
    by_cases hfs : fs = []
    · subst hfs
      simp
    · have hfse : fs.isEmpty = false := by
        cases fs with
        | nil => exact absurd rfl hfs
        | cons a as => simp
      rw [hfse]
      by_cases hidx : t._get_indices_by_kwargs none fs = []
      · rw [hidx]
        cases b <;> simp [hfs, hidx]
      · have hne : (t._get_indices_by_kwargs none fs).isEmpty = false := by
          cases hx : t._get_indices_by_kwargs none fs with
          | nil => exact absurd hx hidx
          | cons a as => simp
        rw [hne]
        simp [hfs, hidx]
  exact ⟨hins.1, hupd.1, hdel.1, hins.2, hupd.2, hdel.2⟩

/-- C2, part 2 (counterexample): `Table.update` with `if_exists` and an
*empty* filter on an empty table raises `LWTException` — `range(0)` is
falsy, so the `not indices and if_exists` guard fires — although the claim
allows the conflict only when a *non-empty* filter matches zero rows. -/
theorem C2_counterexample :
    (tblNoPK.update [] [] true).1 = .error .lwt
    ∧ tblNoPK.entries = [] := by
  refine ⟨by decide, rfl⟩

/-- Witness for C2's amended statement: on the one-row table, a
conditional insert of the stored key conflicts and leaves the table
unchanged, and a conditional update matching nothing conflicts and leaves
the table unchanged. -/
theorem C2_amended_witness :
    (tblOneRow.insert [("id", .scalar (.num 7))] true).1 = .error .lwt
    ∧ (tblOneRow.insert [("id", .scalar (.num 7))] true).2 = tblOneRow
    ∧ (tblOneRow.update [("id", .scalar (.num 99))] [] true).1 = .error .lwt
    ∧ (tblOneRow.update [("id", .scalar (.num 99))] [] true).2 = tblOneRow := by
  have h := C2_amended tblOneRow [("id", .scalar (.num 7))]
    [("id", .scalar (.num 99))] [] true
  have hi : (tblOneRow.insert [("id", .scalar (.num 7))] true).1 = .error .lwt :=
    h.1.mpr ⟨rfl, by decide, by decide⟩
  have hu : (tblOneRow.update [("id", .scalar (.num 99))] [] true).1 = .error .lwt :=
    h.2.1.mpr ⟨rfl, by decide⟩
  exact ⟨hi, h.2.2.2.1 hi, hu, h.2.2.2.2.1 hu⟩

theorem applyFieldWrites_length (rows : List Row) (indices : List Nat)
    (fields : List (String × Value)) :
    (applyFieldWrites rows indices fields).length = rows.length := by
  unfold applyFieldWrites
  induction indices generalizing rows with
  | nil => rfl
  | cons i rest ih =>
      simp only [List.foldl_cons]
      rw [ih]
      clear ih
      induction fields generalizing rows with
      | nil => rfl
      | cons f fs ihf =>
          simp only [List.foldl_cons]
          rw [ihf]
          by_cases hlt : i < rows.length
          · simp [hlt, List.length_modify]
          · simp [hlt]

/-- C9, part 1 (counterexample): executing a delete statement carrying the
explicit field target `a := null` against keyspace `ks`, table `t` (whose
single row matches the empty filter) reports success but leaves the entire
state — in particular the table's rows — unchanged: the row still carries
`a = 5`, no column was nulled, and no row was removed.  The claimed
column-level nulling never reaches the table because the writes go to the
never-populated module-level store. -/
theorem C9_counterexample :
    (DMLQuery_execute_delete gOneRow "ks" "t" [] [("a", .scalar .null)]).1 = .ok ()
    ∧ (DMLQuery_execute_delete gOneRow "ks" "t" [] [("a", .scalar .null)]).2 = gOneRow
    ∧ rowGetD ((tblOneRow.entries.get? 0).getD []) "a" = .scalar (.num 5) := by
  refine ⟨by decide, by decide, by decide⟩

/-- C9 as amended: a delete statement with explicit field targets never
removes a row and never touches any table: the keyspace registry is
returned unchanged, and the field writes only mutate the same-indexed rows
of the module-level `_entries` store, whose per-table row counts are
preserved. -/
theorem C9_amended (g : GlobalState) (model_ks stmt_table : String)
    (wcs fields : List (String × Value)) (h : fields ≠ []) :
    ((DMLQuery_execute_delete g model_ks stmt_table wcs fields).2).keyspaces
        = g.keyspaces
    ∧ ∀ tn : String,
        (List.lookup tn ((DMLQuery_execute_delete g model_ks stmt_table wcs fields).2).entriesStore).map
            List.length
          = (List.lookup tn g.entriesStore).map List.length := by
  have hfe : fields.isEmpty = false := by
    cases fields with
    | nil => exact absurd rfl h
    | cons a as => simp
  unfold DMLQuery_execute_delete
  cases hkt : get_ks_table_name model_ks stmt_table with
  | none => exact ⟨rfl, fun _ => rfl⟩
  | some p =>
      obtain ⟨ksName, tblName⟩ := p
      dsimp only
      cases hks : get_keyspace g ksName with
      | none => exact ⟨rfl, fun _ => rfl⟩
      | some ks =>
          dsimp only
          cases htb : ks.get_table tblName with
          | none => exact ⟨rfl, fun _ => rfl⟩
          | some tbl =>
              rw [hfe]
              simp only [Bool.false_eq_true, if_false]
              cases hst : List.lookup stmt_table g.entriesStore with
              | none => exact ⟨rfl, fun _ => rfl⟩
              | some rows =>
                  dsimp only
                  refine ⟨rfl, fun tn => ?_⟩
                  by_cases htn : tn = stmt_table
                  · subst htn
                    rw [lookup_alSet_self, hst]
                    simp [applyFieldWrites_length]
                  · rw [lookup_alSet_ne _ _ _ _ htn]

/-- Witness for C9's amended statement at the concrete one-row state. -/
theorem C9_amended_witness :
    ((DMLQuery_execute_delete gOneRow "ks" "t" [("id", .scalar (.num 7))]
        [("a", .scalar .null)]).2).keyspaces = gOneRow.keyspaces
    ∧ (List.lookup "t" ((DMLQuery_execute_delete gOneRow "ks" "t"
        [("id", .scalar (.num 7))] [("a", .scalar .null)]).2).entriesStore).map
          List.length
      = (List.lookup "t" gOneRow.entriesStore).map List.length := by
  have h := C9_amended gOneRow "ks" "t" [("id", .scalar (.num 7))]
    [("a", .scalar .null)] (by decide)
  exact ⟨h.1, h.2 "t"⟩

theorem idxLoop_length_le {kwargs : Row} {n : Nat} :
    ∀ (rows : List Row) (i : Nat) (acc : List Nat), acc.length < n →
      (idxLoop kwargs (some n) i rows acc).length ≤ n := by
  intro rows
  induction rows with
  | nil =>
      intro i acc h
      simpa [idxLoop] using Nat.le_of_lt h
  | cons e rest ih =>
      intro i acc h
      cases hm : rowMatchesKwargs kwargs e with
      | true =>
          have h1 : idxLoop kwargs (some n) i (e :: rest) acc
              = if some n = some (acc ++ [i]).length then acc ++ [i]
                else idxLoop kwargs (some n) (i + 1) rest (acc ++ [i]) := by
            simp [idxLoop, hm]
          rw [h1]
          by_cases hn : (some n : Option Nat) = some (acc ++ [i]).length
          · rw [if_pos hn]
            simp only [Option.some_inj] at hn
            omega
          · rw [if_neg hn]
            apply ih
            simp only [Option.some_inj] at hn
            simp only [List.length_append, List.length_cons, List.length_nil] at hn ⊢
            omega
      | false =>
          have h1 : idxLoop kwargs (some n) i (e :: rest) acc
              = if some n = some acc.length then acc
                else idxLoop kwargs (some n) (i + 1) rest acc := by
            simp [idxLoop, hm]
          rw [h1]
          by_cases hn : (some n : Option Nat) = some acc.length
          · rw [if_pos hn]
            exact Nat.le_of_lt h
          · rw [if_neg hn]
            exact ih _ acc h

theorem idxLoop_none_eq {kwargs : Row} :
    ∀ (rows : List Row) (i : Nat) (acc : List Nat),
      idxLoop kwargs none i rows acc = acc ++ matchingIndices kwargs i rows := by
  intro rows
  induction rows with
  | nil => intro i acc; simp [idxLoop, matchingIndices]
  | cons e rest ih =>
      intro i acc
      cases hm : rowMatchesKwargs kwargs e with
      | true =>
          have h1 : idxLoop kwargs none i (e :: rest) acc
              = idxLoop kwargs none (i + 1) rest (acc ++ [i]) := by
            simp [idxLoop, hm]
          have h2 : matchingIndices kwargs i (e :: rest)
              = i :: matchingIndices kwargs (i + 1) rest := by
            simp [matchingIndices, hm]
          rw [h1, h2, ih (i + 1) (acc ++ [i])]
          simp
      | false =>
          have h1 : idxLoop kwargs none i (e :: rest) acc
              = idxLoop kwargs none (i + 1) rest acc := by
            simp [idxLoop, hm]
          have h2 : matchingIndices kwargs i (e :: rest)
              = matchingIndices kwargs (i + 1) rest := by
            simp [matchingIndices, hm]
          rw [h1, h2, ih (i + 1) acc]

/-- C4, part 1 (counterexample): with an empty filter the index scan
returns `range(len(entries))` before ever looking at `limit`, so a `find`
with `limit = 1` on a two-row table returns both rows — the claim's
"result contains at most n rows — including the case where filters is
empty" fails. -/
theorem C4_counterexample :
    tbl2Rows.find [] (some 1) ["a"]
      = some [[("a", .scalar (.num 1))], [("a", .scalar (.num 2))]]
    ∧ (tbl2Rows.find [] (some 1) ["a"]).map List.length = some 2 := by
  refine ⟨by decide, by decide⟩

/-- C4 as amended: with a *non-empty* filter and a positive limit `n`,
collection stops once `n` matches are found, so `find` returns at most `n`
rows; with an *empty* filter the scan returns one index per stored row —
`limit` is ignored entirely — so `find` returns every row; and with
`limit = None` and a non-empty filter the scan returns exactly the indices
of all matching rows in insertion order. -/
theorem C4_amended (t : Table) (fs : Row) (n : Nat) (lim : Option Nat)
    (sel : List String) (res res0 : List Row) :
    (fs ≠ [] → 1 ≤ n → t.find fs (some n) sel = some res → res.length ≤ n)
    ∧ (t._get_indices_by_kwargs lim [] = List.range t.entries.length)
    ∧ (t.find [] lim sel = some res0 → res0.length = t.entries.length)
    ∧ (fs ≠ [] →
        t._get_indices_by_kwargs none fs = matchingIndices fs 0 t.entries) := by
  have hrange : t._get_indices_by_kwargs lim [] = List.range t.entries.length := by
    simp [Table._get_indices_by_kwargs]
  refine ⟨?_, hrange, ?_, ?_⟩
  · intro hfs hn hfind
    have hfe : fs.isEmpty = false := by
      cases fs with
      | nil => exact absurd rfl hfs
      | cons a as => simp
    unfold Table.find at hfind
    have hlen := traverseOpt_length hfind
    rw [hlen]
    unfold Table._get_indices_by_kwargs
    rw [hfe]
    simp only [Bool.false_eq_true, if_false]
    exact idxLoop_length_le t.entries 0 [] (by simpa using hn)
  · intro hfind
    unfold Table.find at hfind
    have hlen := traverseOpt_length hfind
    rw [hlen, hrange, List.length_range]
  · intro hfs
    have hfe : fs.isEmpty = false := by
      cases fs with
      | nil => exact absurd rfl hfs
      | cons a as => simp
    unfold Table._get_indices_by_kwargs
    rw [hfe]
    simp only [Bool.false_eq_true, if_false]
    simpa using idxLoop_none_eq t.entries 0 []

/-- Witness for C4's amended statement on the two-row table: a filter
matching one row with `limit = 1` returns at most one row; the empty
filter ignores the limit and yields one index per stored row; `limit =
None` returns exactly the matching indices in order. -/
theorem C4_amended_witness :
    ([[("a", Value.scalar (Scalar.num 1))]] : List Row).length ≤ 1
    ∧ tbl2Rows._get_indices_by_kwargs (some 1) [] = List.range tbl2Rows.entries.length
    ∧ ([[("a", Value.scalar (Scalar.num 1))],
        [("a", Value.scalar (Scalar.num 2))]] : List Row).length
        = tbl2Rows.entries.length
    ∧ tbl2Rows._get_indices_by_kwargs none [("a", .scalar (.num 2))]
        = matchingIndices [("a", .scalar (.num 2))] 0 tbl2Rows.entries := by
  have h := C4_amended tbl2Rows [("a", .scalar (.num 2))] 1 (some 1) ["a"]
    [[("a", .scalar (.num 2))]] [[("a", .scalar (.num 1))], [("a", .scalar (.num 2))]]
  have h2 := C4_amended tbl2Rows [("a", .scalar (.num 1))] 1 (some 1) ["a"]
    [[("a", .scalar (.num 1))]] [[("a", .scalar (.num 1))], [("a", .scalar (.num 2))]]
  exact ⟨h2.1 (by decide) (by decide) (by decide), h.2.1,
    h.2.2.1 (by decide), h.2.2.2 (by decide)⟩

theorem get?_lt {α : Type} {l : List α} {i : Nat} {x : α}
    (h : l.get? i = some x) : i < l.length := by
  rcases List.get?_eq_some.mp h with ⟨hlt, _⟩
  exact hlt

theorem set_get_self {α : Type} : ∀ (l : List α) (i : Nat) (x : α),
    l.get? i = some x → l.set i x = l
  | [], i, x, h => by simp [List.get?] at h
  | a :: as, 0, x, h => by
      simp only [List.get?] at h
      injection h with h
      simp [h]
  | a :: as, i + 1, x, h => by
      simp only [List.get?] at h
      simp [set_get_self as i x h]

theorem get?_set_self {α : Type} {l : List α} {i : Nat} {a : α}
    (h : i < l.length) : (l.set i a).get? i = some a := by
  rw [List.get?_eq_getElem?]
  exact List.getElem?_set_self h

theorem alSet_alSet {α : Type} (l : List (String × α)) (k : String) (v w : α) :
    alSet (alSet l k v) k w = alSet l k w := by
  unfold alSet
  by_cases hany : l.any (fun p => p.1 == k) = true
  · rw [if_pos hany, if_pos (any_replaceKey hany), if_pos hany]
    exact replaceKey_replaceKey l k w v
  · rw [if_neg hany]
    have hf : l.any (fun p => p.1 == k) = false := by
      cases hx : l.any (fun p => p.1 == k)
      · rfl
      · exact absurd hx hany
    have hany2 : ((l ++ [(k, v)]).any (fun p => p.1 == k)) = true := by simp
    rw [if_pos hany2, if_neg hany]
    show replaceKey k w (l ++ [(k, v)]) = l ++ [(k, w)]
    have h1 : replaceKey k w (l ++ [(k, v)])
        = replaceKey k w l ++ replaceKey k w [(k, v)] := by
      simp [replaceKey]
    rw [h1, replaceKey_id hf]
    simp [replaceKey]

theorem mem_setUpdate_left {s v : List Scalar} {e : Scalar} (h : e ∈ s) :
    e ∈ setUpdate s v := by
  unfold setUpdate
  induction v generalizing s with
  | nil => simpa using h
  | cons a as ih =>
      simp only [List.foldl_cons]
      apply ih
      by_cases hc : s.contains a = true
      · rw [if_pos hc]; exact h
      · rw [if_neg hc]; exact List.mem_append_left _ h

theorem mem_setUpdate_right {s v : List Scalar} {e : Scalar} (h : e ∈ v) :
    e ∈ setUpdate s v := by
  unfold setUpdate
  induction v generalizing s with
  | nil => simp at h
  | cons a as ih =>
      simp only [List.foldl_cons]
      rcases List.mem_cons.mp h with h1 | h1
      · subst h1
        have hstep : e ∈ (if s.contains e = true then s else s ++ [e]) := by
          by_cases hc : s.contains e = true
          · rw [if_pos hc]; exact List.mem_of_elem_eq_true hc
          · rw [if_neg hc]
            exact List.mem_append_right _ (List.mem_singleton.mpr rfl)
        have h2 := mem_setUpdate_left (v := as) hstep
        unfold setUpdate at h2
        exact h2
      · exact ih h1

theorem setUpdate_eq_self {s v : List Scalar} (h : ∀ e ∈ v, e ∈ s) :
    setUpdate s v = s := by
  unfold setUpdate
  induction v generalizing s with
  | nil => rfl
  | cons a as ih =>
      simp only [List.foldl_cons]
      have hc : s.contains a = true :=
        List.elem_eq_true_of_mem (h a (List.mem_cons_self a as))
      rw [if_pos hc]
      exact ih (fun e he => h e (List.mem_cons_of_mem a he))

theorem setUpdate_idem (s v : List Scalar) :
    setUpdate (setUpdate s v) v = setUpdate s v :=
  setUpdate_eq_self (fun _ he => mem_setUpdate_right he)

theorem setDiff_singleton_of_not_mem {s : List Scalar} {x : Scalar} (h : x ∉ s) :
    setDiff s [x] = s := by
  unfold setDiff
  rw [List.filter_eq_self]
  intro a ha
  have : a ≠ x := fun he => h (he ▸ ha)
  simp [List.contains_cons, this]

theorem assign_value_container (t : Table) (es : List Row) (i : Nat) (col : Column)
    (c op : String) (val : Value) (r : Row)
    (hop : ¬ op = DEFAULT_OPERATOR)
    (hcol : List.lookup c t.columns = some col)
    (hrow : es.get? i = some r) :
    t._assign_value es i c op val
      = (applyContainerOp col.kind op r c val).map (es.set i) := by
  unfold Table._assign_value
  rw [if_neg hop, hcol, hrow]

/-- C5: the collection-operator semantics `Table.update` applies per
matched row through `Table._assign_value`: `add` of a set to a unique-set
column twice leaves the same stored state as adding it once; `remove` of
`{x}` from a stored set not containing `x` leaves the entries unchanged;
`append [..A]` then `append [..B]` on an ordered-list column extends the
stored list with A's elements then B's (order preserved), and a subsequent
`prepend [..W]` places W's elements before all existing ones. -/
theorem C5_update_operator_semantics
    (t : Table) (es : List Row) (i : Nat) (r : Row)
    (c cl : String) (colS colL : Column) (ekS ekL : ElemKind)
    (s v l A B W : List Scalar) (x : Scalar)
    (hrow : es.get? i = some r)
    (hnd : (r.map Prod.fst).Nodup)
    (hcolS : List.lookup c t.columns = some colS)
    (hkS : colS.kind = ColKind.cset ekS)
    (hcolL : List.lookup cl t.columns = some colL)
    (hkL : colL.kind = ColKind.clist ekL)
    (hs : List.lookup c r = some (.vset s))
    (hl : List.lookup cl r = some (.vlist l))
    (hx : x ∉ s) :
    (t._assign_value es i c "add" (.vset v)
        = some (es.set i (alSet r c (.vset (setUpdate s v)))))
    ∧ (t._assign_value (es.set i (alSet r c (.vset (setUpdate s v)))) i c "add"
          (.vset v)
        = some (es.set i (alSet r c (.vset (setUpdate s v)))))
    ∧ (t._assign_value es i c "remove" (.vset [x]) = some es)
    ∧ (t._assign_value es i cl "append" (.vlist A)
        = some (es.set i (alSet r cl (.vlist (l ++ A)))))
    ∧ (t._assign_value (es.set i (alSet r cl (.vlist (l ++ A)))) i cl "append"
          (.vlist B)
        = some (es.set i (alSet r cl (.vlist ((l ++ A) ++ B)))))
    ∧ (t._assign_value (es.set i (alSet r cl (.vlist ((l ++ A) ++ B)))) i cl
          "prepend" (.vlist W)
        = some (es.set i (alSet r cl (.vlist (W ++ ((l ++ A) ++ B))))))
    ∧ List.lookup cl (alSet r cl (.vlist (W ++ ((l ++ A) ++ B))))
        = some (.vlist (W ++ ((l ++ A) ++ B))) := by
  have hlt : i < es.length := get?_lt hrow
  have hset : ∀ (r2 : Row), (es.set i r2).get? i = some r2 := fun r2 =>
    get?_set_self hlt
  refine ⟨?_, ?_, ?_, ?_, ?_, ?_, lookup_alSet_self _ _ _⟩
  · rw [assign_value_container t es i colS c "add" (.vset v) r (by decide) hcolS hrow,
      hkS]
    simp [applyContainerOp, hs]
  · rw [assign_value_container t _ i colS c "add" (.vset v)
        (alSet r c (.vset (setUpdate s v))) (by decide) hcolS (hset _), hkS]
    have hs1 : List.lookup c (alSet r c (.vset (setUpdate s v)))
        = some (.vset (setUpdate s v)) := lookup_alSet_self _ _ _
    simp only [applyContainerOp, hs1, setUpdate_idem]
    rw [alSet_alSet]
    show some ((es.set i (alSet r c (Value.vset (setUpdate s v)))).set i
        (alSet r c (Value.vset (setUpdate s v))))
      = some (es.set i (alSet r c (Value.vset (setUpdate s v))))
    rw [List.set_set]
  · rw [assign_value_container t es i colS c "remove" (.vset [x]) r (by decide)
        hcolS hrow, hkS]
    simp only [applyContainerOp, hs]
    rw [setDiff_singleton_of_not_mem hx, alSet_self_of_lookup hnd hs]
    show some (es.set i r) = some es
    rw [set_get_self es i r hrow]
  · rw [assign_value_container t es i colL cl "append" (.vlist A) r (by decide)
        hcolL hrow, hkL]
    simp [applyContainerOp, hl]
  · rw [assign_value_container t _ i colL cl "append" (.vlist B)
        (alSet r cl (.vlist (l ++ A))) (by decide) hcolL (hset _), hkL]
    have hl1 : List.lookup cl (alSet r cl (.vlist (l ++ A)))
        = some (.vlist (l ++ A)) := lookup_alSet_self _ _ _
    simp only [applyContainerOp, hl1]
    rw [alSet_alSet]
    show some ((es.set i (alSet r cl (Value.vlist (l ++ A)))).set i
        (alSet r cl (Value.vlist ((l ++ A) ++ B))))
      = some (es.set i (alSet r cl (Value.vlist ((l ++ A) ++ B))))
    rw [List.set_set]
  · rw [assign_value_container t _ i colL cl "prepend" (.vlist W)
        (alSet r cl (.vlist ((l ++ A) ++ B))) (by decide) hcolL (hset _), hkL]
    have hl2 : List.lookup cl (alSet r cl (.vlist ((l ++ A) ++ B)))
        = some (.vlist ((l ++ A) ++ B)) := lookup_alSet_self _ _ _
    simp only [applyContainerOp, hl2]
    rw [alSet_alSet]
    show some ((es.set i (alSet r cl (Value.vlist ((l ++ A) ++ B)))).set i
        (alSet r cl (Value.vlist (W ++ ((l ++ A) ++ B)))))
      = some (es.set i (alSet r cl (Value.vlist (W ++ ((l ++ A) ++ B)))))
    rw [List.set_set]

/-- Witness for C5 on a concrete one-row table: add `{d}` to the empty
`skills` set twice, remove an absent element, append `[x, y]` then `[b]`
to `tags` and finally prepend `[w]`. -/
theorem C5_update_operator_semantics_witness :
    (tblPK._assign_value [rowEx] 0 "skills" "add" (.vset [Scalar.str "d"])
        = some ([rowEx].set 0
            (alSet rowEx "skills" (.vset (setUpdate [] [Scalar.str "d"])))))
    ∧ (tblPK._assign_value
          ([rowEx].set 0
            (alSet rowEx "skills" (.vset (setUpdate [] [Scalar.str "d"]))))
          0 "skills" "add" (.vset [Scalar.str "d"])
        = some ([rowEx].set 0
            (alSet rowEx "skills" (.vset (setUpdate [] [Scalar.str "d"])))))
    ∧ (tblPK._assign_value [rowEx] 0 "skills" "remove" (.vset [Scalar.str "q"])
        = some [rowEx])
    ∧ (tblPK._assign_value [rowEx] 0 "tags" "append"
          (.vlist [Scalar.str "x", Scalar.str "y"])
        = some ([rowEx].set 0
            (alSet rowEx "tags" (.vlist ([] ++ [Scalar.str "x", Scalar.str "y"])))))
    ∧ (tblPK._assign_value
          ([rowEx].set 0
            (alSet rowEx "tags" (.vlist ([] ++ [Scalar.str "x", Scalar.str "y"]))))
          0 "tags" "append" (.vlist [Scalar.str "b"])
        = some ([rowEx].set 0
            (alSet rowEx "tags"
              (.vlist (([] ++ [Scalar.str "x", Scalar.str "y"]) ++ [Scalar.str "b"])))))
    ∧ (tblPK._assign_value
          ([rowEx].set 0
            (alSet rowEx "tags"
              (.vlist (([] ++ [Scalar.str "x", Scalar.str "y"]) ++ [Scalar.str "b"]))))
          0 "tags" "prepend" (.vlist [Scalar.str "w"])
        = some ([rowEx].set 0
            (alSet rowEx "tags"
              (.vlist (Scalar.str "w" ::
                (([] ++ [Scalar.str "x", Scalar.str "y"]) ++ [Scalar.str "b"]))))))
    ∧ List.lookup "tags"
          (alSet rowEx "tags"
            (.vlist (Scalar.str "w" ::
              (([] ++ [Scalar.str "x", Scalar.str "y"]) ++ [Scalar.str "b"]))))
        = some (.vlist (Scalar.str "w" ::
            (([] ++ [Scalar.str "x", Scalar.str "y"]) ++ [Scalar.str "b"]))) := by
  have h := C5_update_operator_semantics tblPK [rowEx] 0 rowEx "skills" "tags"
    colSkills colTags .plain .plain [] [Scalar.str "d"] []
    [Scalar.str "x", Scalar.str "y"] [Scalar.str "b"] [Scalar.str "w"]
    (Scalar.str "q") (by decide) (by decide) (by decide) (by decide) (by decide)
    (by decide) (by decide) (by decide) (by decide)
  exact h

theorem zip_map_all {l : List String} {f g : String → Value}
    (h : ((l.map f).zip (l.map g)).all (fun p => p.1.beq p.2) = true) :
    ∀ nm ∈ l, (f nm).beq (g nm) = true := by
  rw [List.zip_map'] at h
  intro nm hnm
  have := List.all_eq_true.mp h _ (List.mem_map.mpr ⟨nm, hnm, rfl⟩)
  simpa using this

theorem pkMatch_eq_pkShare (t : Table) (e0 e : Row) :
    t.pkMatch (t.pkProj e0) e = t.pkShare e e0 := by
  unfold Table.pkMatch Table.pkProj Table.pkShare
  induction t.primaryKeyNames with
  | nil => rfl
  | cons nm rest ih =>
      simp only [List.map_cons, List.zip_cons_cons, List.all_cons, ih]

theorem pkShare_symm {t : Table} {r1 r2 : Row} (h : t.pkShare r1 r2 = true) :
    t.pkShare r2 r1 = true := by
  unfold Table.pkShare at h ⊢
  rw [List.all_eq_true] at h ⊢
  exact fun nm hnm => Value.beq_symm (h nm hnm)

theorem pkShare_trans {t : Table} {r1 r2 r3 : Row}
    (h12 : t.pkShare r1 r2 = true) (h23 : t.pkShare r2 r3 = true) :
    t.pkShare r1 r3 = true := by
  unfold Table.pkShare at h12 h23 ⊢
  rw [List.all_eq_true] at h12 h23 ⊢
  exact fun nm hnm => Value.beq_trans (h12 nm hnm) (h23 nm hnm)

theorem findIdxFrom_some {p : Row → Bool} :
    ∀ (l : List Row) (s j : Nat), findIdxFrom p s l = some j →
      s ≤ j ∧ j - s < l.length ∧ p (l.getD (j - s) []) = true
  | [], s, j, h => by simp [findIdxFrom] at h
  | e :: rest, s, j, h => by
      unfold findIdxFrom at h
      by_cases hp : p e = true
      · rw [if_pos hp] at h
        injection h with h
        subst h
        simpa [List.getD] using hp
      · rw [if_neg hp] at h
        obtain ⟨h1, h2, h3⟩ := findIdxFrom_some rest (s + 1) j h
        refine ⟨by omega, by simp; omega, ?_⟩
        have hj : j - s = (j - (s + 1)) + 1 := by omega
        rw [hj]
        simpa [List.getD] using h3

theorem findIdxFrom_none {p : Row → Bool} :
    ∀ (l : List Row) (s : Nat), findIdxFrom p s l = none →
      ∀ k, k < l.length → p (l.getD k []) = false
  | [], _, _, k, hk => by simp at hk
  | e :: rest, s, h, k, hk => by
      unfold findIdxFrom at h
      by_cases hp : p e = true
      · rw [if_pos hp] at h
        exact absurd h (by simp)
      · rw [if_neg hp] at h
        cases k with
        | zero =>
            simpa [List.getD] using (by
              cases hx : p e
              · rfl
              · exact absurd hx hp)
        | succ k2 =>
            have := findIdxFrom_none rest (s + 1) h k2 (by simpa using hk)
            simpa [List.getD] using this

theorem findIdxFrom_some_of_exists {p : Row → Bool} {l : List Row} {k : Nat}
    (hk : k < l.length) (hp : p (l.getD k []) = true) (s : Nat) :
    ∃ j, findIdxFrom p s l = some j := by
  cases hfind : findIdxFrom p s l with
  | some j => exact ⟨j, rfl⟩
  | none =>
      have hf := findIdxFrom_none l s hfind k hk
      rw [hp] at hf
      exact absurd hf (by simp)

/-- The two success shapes of `Table.insert` without `if_not_exists`:
either `_find_by_pk` found an index (within bounds, its row matching the
new entry's primary-key tuple) and the row was replaced there, or nothing
matched and the row was appended. -/
theorem insert_ok_shape (t : Table) (v : Row)
    (h : (t.insert v false).1 = .ok ()) :
    t.primaryKeyNames.any
        (fun pk => decide (rowGetD (t.newEntry v) pk = .scalar .null)) = false
    ∧ ((t.insert v false).2.name = t.name
        ∧ (t.insert v false).2.columns = t.columns
        ∧ (t.insert v false).2.dbMap = t.dbMap)
    ∧ ((∃ idx, idx < t.entries.length
          ∧ t.pkMatch (t.pkProj (t.newEntry v)) (t.entries.getD idx []) = true
          ∧ (t.insert v false).2.entries = t.entries.set idx (t.newEntry v))
        ∨ ((∀ k, k < t.entries.length →
              t.pkMatch (t.pkProj (t.newEntry v)) (t.entries.getD k []) = false)
            ∧ (t.insert v false).2.entries = t.entries ++ [t.newEntry v])) := by
  simp only [Table.insert] at h ⊢
  cases hchk : t.primaryKeyNames.any
      (fun pk => decide (rowGetD (t.newEntry v) pk = .scalar .null)) with
  | true =>
      rw [hchk] at h
      simp at h
  | false =>
      rw [hchk] at h
      simp only [Bool.false_eq_true, if_false] at h ⊢
      cases hfind : t._find_by_pk
          (t.primaryKeyNames.map (fun pk => rowGetD (t.newEntry v) pk)) with
      | some idx =>
          obtain ⟨h1, h2, h3⟩ :=
            findIdxFrom_some t.entries 0 idx (by simpa [Table._find_by_pk] using hfind)
          refine ⟨trivial, ⟨rfl, rfl, rfl⟩, Or.inl ⟨idx, by simpa using h2, ?_, rfl⟩⟩
          simpa [Table.pkProj] using h3
      | none =>
          refine ⟨trivial, ⟨rfl, rfl, rfl⟩, Or.inr ⟨?_, rfl⟩⟩
          intro k hk
          have := findIdxFrom_none t.entries 0
            (by simpa [Table._find_by_pk] using hfind) k hk
          simpa [Table.pkProj] using this

theorem beq_scalar_left {a : Scalar} {y : Value}
    (h : (Value.scalar a).beq y = true) : y = Value.scalar a := by
  cases y with
  | scalar b =>
      simp only [Value.beq] at h
      rw [eq_of_beq h]
  | vlist xs => simp [Value.beq] at h
  | vset xs => simp [Value.beq] at h
  | vmap xs => simp [Value.beq] at h

theorem schema_congr {t1 t : Table} (hc : t1.columns = t.columns)
    (hd : t1.dbMap = t.dbMap) :
    t1.columnNames = t.columnNames
    ∧ t1.primaryKeyNames = t.primaryKeyNames
    ∧ (∀ cn, t1._default_value cn = t._default_value cn)
    ∧ (∀ v, t1.newEntry v = t.newEntry v) := by
  have h1 : t1.columnNames = t.columnNames := by
    unfold Table.columnNames; rw [hc]
  have h2 : t1.primaryKeyNames = t.primaryKeyNames := by
    unfold Table.primaryKeyNames; rw [hc]
  have h3 : ∀ cn, t1._default_value cn = t._default_value cn := by
    intro cn; unfold Table._default_value; rw [hc, hd]
  have h4 : ∀ v, t1.newEntry v = t.newEntry v := by
    intro v
    unfold Table.newEntry
    rw [h1]
    simp only [h3]
  exact ⟨h1, h2, h3, h4⟩

theorem lookup_foldl_alSet {α : Type} (f : String → α) :
    ∀ (ns : List String) (acc : List (String × α)) (cn : String),
      List.lookup cn (ns.foldl (fun a n => alSet a n (f n)) acc)
        = if cn ∈ ns then some (f cn) else List.lookup cn acc
  | [], acc, cn => by simp
  | n :: ns, acc, cn => by
      simp only [List.foldl_cons]
      rw [lookup_foldl_alSet f ns (alSet acc n (f n)) cn]
      by_cases hmem : cn ∈ ns
      · rw [if_pos hmem, if_pos (List.mem_cons_of_mem n hmem)]
      · rw [if_neg hmem]
        by_cases hcn : cn = n
        · subst hcn
          rw [if_pos (List.mem_cons_self cn ns), lookup_alSet_self]
        · rw [lookup_alSet_ne acc n cn (f n) hcn,
            if_neg (by simp [hcn, hmem])]

theorem lookup_newEntry (t : Table) (values : Row) (cn : String)
    (h : cn ∈ t.columnNames) :
    List.lookup cn (t.newEntry values)
      = some ((List.lookup cn values).getD (t._default_value cn)) := by
  unfold Table.newEntry
  rw [lookup_foldl_alSet
    (fun n => (List.lookup n values).getD (t._default_value n)) t.columnNames [] cn]
  rw [if_pos h]

/-- C3: inserting a second row with the same primary-key tuple without
`if_not_exists` replaces the stored row wholesale: the second insert
succeeds, preserves the row count, rewrites one stored position with
exactly the freshly built row `newEntry v2`, and in that fresh row every
column omitted from the second call's values carries its declared default
(`None` for scalars, the declared-kind empty container for list/set/map
columns) — never the first insert's value. -/
theorem C3_insert_overwrite_wholesale (t : Table) (v1 v2 : Row)
    (h1 : (t.insert v1 false).1 = .ok ())
    (hsame : (((t.pkProj (t.newEntry v2)).zip (t.pkProj (t.newEntry v1))).all
        (fun p => p.1.beq p.2)) = true) :
    ((t.insert v1 false).2.insert v2 false).1 = .ok ()
    ∧ (((t.insert v1 false).2.insert v2 false).2).entries.length
        = ((t.insert v1 false).2).entries.length
    ∧ (∃ k, k < ((t.insert v1 false).2).entries.length
        ∧ (((t.insert v1 false).2.insert v2 false).2).entries
            = ((t.insert v1 false).2).entries.set k (t.newEntry v2))
    ∧ (∀ cn ∈ t.columnNames, List.lookup cn v2 = none →
        List.lookup cn (t.newEntry v2) = some (t._default_value cn)) := by
  obtain ⟨hchk1, ⟨hname, hcols, hdb⟩, hshape⟩ := insert_ok_shape t v1 h1
  obtain ⟨hCN, hPK, hDV, hNE⟩ := schema_congr hcols hdb
  have hpt : ∀ nm ∈ t.primaryKeyNames,
      (rowGetD (t.newEntry v2) nm).beq (rowGetD (t.newEntry v1) nm) = true := by
    unfold Table.pkProj at hsame
    exact zip_map_all hsame
  set e1 := t.newEntry v1 with he1
  set e2 := t.newEntry v2 with he2
  set t1 := (t.insert v1 false).2 with ht1
  have hp1 : ∃ p1, p1 < t1.entries.length ∧ t1.entries.getD p1 [] = e1 := by
    rcases hshape with ⟨idx, hidx, _, hents⟩ | ⟨_, hents⟩
    · refine ⟨idx, ?_, ?_⟩
      · rw [hents, List.length_set]; exact hidx
      · show (t1.entries.get? idx).getD [] = e1
        rw [hents, get?_set_self hidx]
        rfl
    · refine ⟨t.entries.length, ?_, ?_⟩
      · rw [hents, List.length_append]; simp
      · show (t1.entries.get? t.entries.length).getD [] = e1
        rw [hents, List.get?_eq_getElem?, List.getElem?_concat_length]
        rfl
  obtain ⟨p1, hp1lt, hp1e⟩ := hp1
  have hchk2 : t.primaryKeyNames.any
      (fun pk => decide (rowGetD e2 pk = Value.scalar Scalar.null)) = false := by
    by_contra hcon
    have hany : t.primaryKeyNames.any
        (fun pk => decide (rowGetD e2 pk = Value.scalar Scalar.null)) = true := by
      cases hx : t.primaryKeyNames.any
          (fun pk => decide (rowGetD e2 pk = Value.scalar Scalar.null))
      · exact absurd hx hcon
      · rfl
    rcases List.any_eq_true.mp hany with ⟨pk, hpkmem, hpknull⟩
    have hnull : rowGetD e2 pk = Value.scalar Scalar.null := of_decide_eq_true hpknull
    have hbeq := hpt pk hpkmem
    rw [hnull] at hbeq
    have h1null := beq_scalar_left hbeq
    have hany1 : t.primaryKeyNames.any
        (fun pk => decide (rowGetD e1 pk = Value.scalar Scalar.null)) = true :=
      List.any_eq_true.mpr ⟨pk, hpkmem, decide_eq_true h1null⟩
    rw [hchk1] at hany1
    exact absurd hany1 (by simp)
  have hmatch : t1.pkMatch (t.primaryKeyNames.map (fun pk => rowGetD e2 pk))
      (t1.entries.getD p1 []) = true := by
    have heq : t.primaryKeyNames.map (fun pk => rowGetD e2 pk) = t1.pkProj e2 := by
      unfold Table.pkProj; rw [hPK]
    rw [heq, hp1e, pkMatch_eq_pkShare t1 e2 e1]
    unfold Table.pkShare
    rw [hPK, List.all_eq_true]
    intro nm hnm
    exact Value.beq_symm (hpt nm hnm)
  obtain ⟨j, hj⟩ := findIdxFrom_some_of_exists hp1lt hmatch 0
  have hjlt : j < t1.entries.length := by
    simpa using (findIdxFrom_some t1.entries 0 j hj).2.1
  have hins2 : t1.insert v2 false
      = (.ok (), { t1 with entries := t1.entries.set j e2 }) := by
    simp only [Table.insert]
    rw [hPK, hNE v2]
    rw [hchk2]
    simp only [Bool.false_eq_true, if_false]
    have hfp : t1._find_by_pk (t.primaryKeyNames.map (fun pk => rowGetD e2 pk))
        = some j := by
      show findIdxFrom
        (t1.pkMatch (t.primaryKeyNames.map (fun pk => rowGetD e2 pk))) 0 t1.entries
        = some j
      exact hj
    rw [hfp]
  refine ⟨?_, ?_, ⟨j, hjlt, ?_⟩, ?_⟩
  · rw [hins2]
  · rw [hins2]
    simp [List.length_set]
  · rw [hins2]
  · intro cn hcn hnone
    rw [lookup_newEntry t v2 cn hcn, hnone]
    rfl

/-- Witness for C3: insert `{id:1, a:5, tags:[x]}`, then insert `{id:1}`
with the same key; the second insert succeeds, keeps one row, and the
freshly built row defaults `a` to `None` and `tags` to `[]`. -/
theorem C3_insert_overwrite_wholesale_witness :
    ((tblPK.insert
        [("id", Value.scalar (Scalar.num 1)), ("a", Value.scalar (Scalar.num 5)),
         ("tags", Value.vlist [Scalar.str "x"])] false).2.insert
        [("id", Value.scalar (Scalar.num 1))] false).1 = .ok ()
    ∧ (((tblPK.insert
        [("id", Value.scalar (Scalar.num 1)), ("a", Value.scalar (Scalar.num 5)),
         ("tags", Value.vlist [Scalar.str "x"])] false).2.insert
        [("id", Value.scalar (Scalar.num 1))] false).2).entries.length
      = (((tblPK.insert
        [("id", Value.scalar (Scalar.num 1)), ("a", Value.scalar (Scalar.num 5)),
         ("tags", Value.vlist [Scalar.str "x"])] false).2)).entries.length
    ∧ List.lookup "a" (tblPK.newEntry [("id", Value.scalar (Scalar.num 1))])
      = some (tblPK._default_value "a")
    ∧ List.lookup "tags" (tblPK.newEntry [("id", Value.scalar (Scalar.num 1))])
      = some (tblPK._default_value "tags") := by
  have h := C3_insert_overwrite_wholesale tblPK
    [("id", Value.scalar (Scalar.num 1)), ("a", Value.scalar (Scalar.num 5)),
     ("tags", Value.vlist [Scalar.str "x"])]
    [("id", Value.scalar (Scalar.num 1))] (by decide) (by decide)
  exact ⟨h.1, h.2.1, h.2.2.2 "a" (by decide) (by decide),
    h.2.2.2 "tags" (by decide) (by decide)⟩

theorem getD_set_self' {l : List Row} {idx : Nat} {e : Row} (h : idx < l.length) :
    (l.set idx e).getD idx [] = e := by
  show ((l.set idx e).get? idx).getD [] = e
  rw [get?_set_self h]
  rfl

theorem getD_set_ne' {l : List Row} {idx k : Nat} {e : Row} (h : idx ≠ k) :
    (l.set idx e).getD k [] = l.getD k [] := by
  show ((l.set idx e).get? k).getD [] = (l.get? k).getD []
  rw [List.get?_eq_getElem?, List.get?_eq_getElem?, List.getElem?_set_ne h]

theorem getD_append_left' {l : List Row} {e : Row} {k : Nat} (h : k < l.length) :
    ((l ++ [e]).getD k []) = l.getD k [] := by
  show ((l ++ [e]).get? k).getD [] = (l.get? k).getD []
  rw [List.get?_eq_getElem?, List.get?_eq_getElem?, List.getElem?_append_left h]

theorem getD_append_last' (l : List Row) (e : Row) :
    ((l ++ [e]).getD l.length []) = e := by
  show ((l ++ [e]).get? l.length).getD [] = e
  rw [List.get?_eq_getElem?, List.getElem?_concat_length]
  rfl

theorem PkDistinct_mk (t : Table) (es : List Row) :
    ({ t with entries := es } : Table).PkDistinct ↔
    (∀ i j : Nat, i < es.length → j < es.length → i ≠ j →
        ¬ t.pkShare (es.getD i []) (es.getD j []) = true) :=
  Iff.rfl

/-- One `Table.insert` call — succeeding or raising — preserves the
primary-key uniqueness invariant. -/
theorem insert_preserves_PkDistinct (t : Table) (v : Row) (b : Bool)
    (h : t.PkDistinct) : ((t.insert v b).2).PkDistinct := by
  simp only [Table.insert]
  cases hchk : t.primaryKeyNames.any
      (fun pk => decide (rowGetD (t.newEntry v) pk = .scalar .null)) with
  | true => exact h
  | false =>
      cases hfind : t._find_by_pk
          (t.primaryKeyNames.map (fun pk => rowGetD (t.newEntry v) pk)) with
      | some idx =>
          cases b with
          | true => exact h
          | false =>
              obtain ⟨-, hidxlt, hidxm⟩ := findIdxFrom_some t.entries 0 idx
                (by simpa [Table._find_by_pk] using hfind)
              simp only [Nat.sub_zero] at hidxlt hidxm
              show ({ t with entries := t.entries.set idx (t.newEntry v) } :
                  Table).PkDistinct
              rw [PkDistinct_mk]
              intro i j hi hj hij hshare
              rw [List.length_set] at hi hj
              have hmm : ∀ r : Row,
                  t.pkMatch (t.primaryKeyNames.map
                    (fun pk => rowGetD (t.newEntry v) pk)) r
                  = t.pkShare r (t.newEntry v) := fun r => by
                have : t.primaryKeyNames.map (fun pk => rowGetD (t.newEntry v) pk)
                    = t.pkProj (t.newEntry v) := rfl
                rw [this, pkMatch_eq_pkShare]
              by_cases hieq : i = idx
              · subst hieq
                have hje : j ≠ i := fun he => hij he.symm
                rw [getD_set_self' hidxlt, getD_set_ne' (fun he => hij he)] at hshare
                have hj2 : t.pkShare (t.entries.getD j []) (t.newEntry v) = true :=
                  pkShare_symm hshare
                have hi2 : t.pkShare (t.entries.getD i []) (t.newEntry v) = true := by
                  rw [← hmm]; exact hidxm
                have : t.pkShare (t.entries.getD i []) (t.entries.getD j []) = true :=
                  pkShare_trans hi2 (pkShare_symm hj2)
                exact h i j hidxlt hj hij this
              · by_cases hjeq : j = idx
                · subst hjeq
                  rw [getD_set_self' hidxlt, getD_set_ne' (fun he => hieq he.symm)]
                    at hshare
                  have hi2 : t.pkShare (t.entries.getD i []) (t.newEntry v) = true :=
                    hshare
                  have hj2 : t.pkShare (t.entries.getD j []) (t.newEntry v) = true := by
                    rw [← hmm]; exact hidxm
                  have : t.pkShare (t.entries.getD i []) (t.entries.getD j []) = true :=
                    pkShare_trans hi2 (pkShare_symm hj2)
                  exact h i j hi hidxlt hij this
                · rw [getD_set_ne' (fun he => hieq he.symm),
                    getD_set_ne' (fun he => hjeq he.symm)] at hshare
                  exact h i j hi hj hij hshare
      | none =>
          have hnone := findIdxFrom_none t.entries 0
            (by simpa [Table._find_by_pk] using hfind)
          show ({ t with entries := t.entries ++ [t.newEntry v] } : Table).PkDistinct
          rw [PkDistinct_mk]
          intro i j hi hj hij hshare
          rw [List.length_append, List.length_cons, List.length_nil] at hi hj
          have hmm : ∀ r : Row,
              t.pkMatch (t.primaryKeyNames.map
                (fun pk => rowGetD (t.newEntry v) pk)) r
              = t.pkShare r (t.newEntry v) := fun r => by
            have : t.primaryKeyNames.map (fun pk => rowGetD (t.newEntry v) pk)
                = t.pkProj (t.newEntry v) := rfl
            rw [this, pkMatch_eq_pkShare]
          by_cases hieq : i = t.entries.length
          · subst hieq
            have hjlt : j < t.entries.length := by omega
            rw [getD_append_last', getD_append_left' hjlt] at hshare
            have := pkShare_symm hshare
            rw [← hmm] at this
            rw [hnone j hjlt] at this
            exact absurd this (by simp)
          · by_cases hjeq : j = t.entries.length
            · subst hjeq
              have hilt : i < t.entries.length := by omega
              rw [getD_append_last', getD_append_left' hilt] at hshare
              rw [← hmm] at hshare
              rw [hnone i hilt] at hshare
              exact absurd hshare (by simp)
            · have hilt : i < t.entries.length := by omega
              have hjlt : j < t.entries.length := by omega
              rw [getD_append_left' hilt, getD_append_left' hjlt] at hshare
              exact h i j hilt hjlt hij hshare

/-- C1: for every table created with a non-empty set of primary-key
columns, after any sequence of `Table.insert` calls (each succeeding or
raising) no two stored rows share the same primary-key tuple: `insert`
looks an existing row up by the primary-key values and replaces it in
place rather than appending a duplicate. -/
theorem C1_primary_key_uniqueness (name : String) (cols : List (String × Column))
    (dbm : List (String × String)) (calls : List (Row × Bool))
    (hpk : (Table.create name cols dbm).primaryKeyNames ≠ []) :
    (calls.foldl (fun tb c => (tb.insert c.1 c.2).2)
      (Table.create name cols dbm)).PkDistinct := by
  have hbase : (Table.create name cols dbm).PkDistinct := by
    intro i j hi hj hij
    simp [Table.create] at hi
  have hfold : ∀ (cs : List (Row × Bool)) (tb : Table), tb.PkDistinct →
      (cs.foldl (fun tb c => (tb.insert c.1 c.2).2) tb).PkDistinct := by
    intro cs
    induction cs with
    | nil => intro tb ht; simpa using ht
    | cons c rest ih =>
        intro tb ht
        exact ih _ (insert_preserves_PkDistinct tb c.1 c.2 ht)
  exact hfold calls _ hbase

/-- Witness for C1: three concrete inserts into a fresh `(id)`-keyed table
(two of them colliding on `id = 1`, one conditional) leave pairwise
distinct primary-key tuples. -/
theorem C1_primary_key_uniqueness_witness :
    ([([("id", Value.scalar (Scalar.num 1)), ("a", Value.scalar (Scalar.num 5))],
        false),
      ([("id", Value.scalar (Scalar.num 2))], false),
      ([("id", Value.scalar (Scalar.num 1)), ("a", Value.scalar (Scalar.num 9))],
        false),
      ([("id", Value.scalar (Scalar.num 2))], true)].foldl
        (fun tb c => (tb.insert c.1 c.2).2)
        (Table.create "t"
          [("id", colId), ("a", colA), ("tags", colTags), ("skills", colSkills)]
          [])).PkDistinct := by
  exact C1_primary_key_uniqueness "t"
    [("id", colId), ("a", colA), ("tags", colTags), ("skills", colSkills)] []
    [([("id", Value.scalar (Scalar.num 1)), ("a", Value.scalar (Scalar.num 5))],
        false),
      ([("id", Value.scalar (Scalar.num 2))], false),
      ([("id", Value.scalar (Scalar.num 1)), ("a", Value.scalar (Scalar.num 9))],
        false),
      ([("id", Value.scalar (Scalar.num 2))], true)]
    (by decide)

end CassandraFake
